import Mathlib

set_option linter.unusedSectionVars false

/-!
Verification of the Alembic-Viewer migration-graph engine.

This file gives a shallow embedding of the core of the repository:
the descriptor parser and migration loader (`src/alembic_viewer/parser.py`),
the graph builder and head/root queries (same file), the layered layout and
search/interaction logic of the canvas (`src/alembic_viewer/canvas.py`) and
the date filter of the application (`src/alembic_viewer/app.py`), together
with theorems settling the specification claims about them.

Python dictionaries are modelled as insertion-ordered association lists,
Python floats as rationals (the comparisons and arithmetic involved are
exact at the inputs considered), and the bounded mutual recursion of the
level computation is modelled with an explicit fuel argument whose
sufficiency is proved.
-/

namespace AlembicViewer

/-- The dynamic shape of `Migration.down_revision` in `models.py`:
`str | tuple[str, ...] | None`. -/
inductive DownRev where
  | null : DownRev
  | single : String → DownRev
  | tup : List String → DownRev
deriving Repr, DecidableEq

/-- `Migration` dataclass from `src/alembic_viewer/models.py`. -/
structure Migration where
  revision : String
  down_revision : DownRev
  message : String
  filename : String
  create_date : String := ""
  is_merge : Bool := false
deriving Repr, DecidableEq

/-- `NodePosition` dataclass from `src/alembic_viewer/models.py`.  The
layout always stores the integer values `100 + col*150` / `50 + level*100`
here; scaling by the (rational) zoom factor happens only where the canvas
draws or hit-tests. -/
structure NodePosition where
  x : Int := 0
  y : Int := 0
  level : Int := 0
  column : Nat := 0
deriving Repr, DecidableEq

/-- A `dict[str, Migration]` in insertion order. -/
abbrev Collection := List (String × Migration)

/-- A `dict[str, list[str]]` adjacency map in insertion order. -/
abbrev AdjMap := List (String × List String)

/-- A `dict[str, int]` level memo in insertion order. -/
abbrev Levels := List (String × Int)

/-! Generic insertion-ordered dict operations shared by all the maps
above: lookup (`d.get`/`d[k]`), key membership (`k in d`), assignment
(`d[k] = v`, overwriting in place or appending a fresh key at the end,
as Python dicts do), and the `defaultdict(list)` append
(`d[k].append(v)`). -/

/-- `d.get(k)` on an insertion-ordered dict. -/
def entryFind? {α β : Type} [BEq α] (m : List (α × β)) (k : α) : Option β :=
  match m.find? (fun e => e.1 == k) with
  | some e => some e.2
  | none => none

/-- `k in d` on an insertion-ordered dict. -/
def entryHas {α β : Type} [BEq α] (m : List (α × β)) (k : α) : Bool :=
  m.any (fun e => e.1 == k)

/-- `d[k] = v` on an insertion-ordered dict. -/
def entrySet {α β : Type} [BEq α] (m : List (α × β)) (k : α) (v : β) :
    List (α × β) :=
  if entryHas m k then m.map (fun e => if e.1 == k then (e.1, v) else e)
  else m ++ [(k, v)]

/-- `d[k].append(v)` on a `defaultdict(list)`. -/
def entryAppendOne {α γ : Type} [BEq α] (m : List (α × List γ)) (k : α) (v : γ) :
    List (α × List γ) :=
  if entryHas m k then m.map (fun e => if e.1 == k then (e.1, e.2 ++ [v]) else e)
  else m ++ [(k, [v])]

/-- `rev in migrations` membership test on a dict model. -/
def keyMem (mig : Collection) (k : String) : Bool :=
  entryHas mig k

/-- `d.get(k, [])` on an adjacency dict: the stored list, or `[]` when the
key is absent (also the value Python's `d.get(k)` treats as falsy). -/
def aget (m : AdjMap) (k : String) : List String :=
  (entryFind? m k).getD []

/-- `defaultdict(list)` update `m[k].append(v)`. -/
def aappend (m : AdjMap) (k : String) (v : String) : AdjMap :=
  entryAppendOne m k v

/-- Dict assignment `m[k] = v` on an adjacency dict. -/
def aset (m : AdjMap) (k : String) (v : List String) : AdjMap :=
  entrySet m k v

/-- `levels.get(k)` on the level memo. -/
def lget (m : Levels) (k : String) : Option Int :=
  entryFind? m k

/-- `levels.get(k, d)` on the level memo. -/
def lgetD (m : Levels) (k : String) (d : Int) : Int :=
  (lget m k).getD d

/-- `k in levels` on the level memo. -/
def lmem (m : Levels) (k : String) : Bool :=
  entryHas m k

/-- Dict assignment `levels[k] = v`. -/
def lset (m : Levels) (k : String) (v : Int) : Levels :=
  entrySet m k v

/-- Lookup in the positions dict. -/
def pget (m : List (String × NodePosition)) (k : String) : Option NodePosition :=
  entryFind? m k

/-- Dict assignment on the positions dict. -/
def pset (m : List (String × NodePosition)) (k : String) (v : NodePosition) :
    List (String × NodePosition) :=
  entrySet m k v

/-! ### Descriptor parser (`parser.py`, `parse_migration_file`)

The Python parser extracts four fields with `re` patterns.  The patterns
are `MULTILINE`-anchored, so they are modelled line by line (`\s` inside a
match is modelled as intra-line whitespace, which is where the source
patterns are exercised). -/

/-- A whitespace character as Python's `str.strip` removes it. -/
def isPySpace (c : Char) : Bool :=
  c == ' ' || c == '\t' || c == '\n' || c == '\r'

/-- Python's `str.strip()`. -/
def pyStrip (s : String) : String :=
  String.mk (((s.toList.dropWhile isPySpace).reverse.dropWhile isPySpace).reverse)

/-- Python's `str.lower()` (the identifiers and dates involved are ASCII). -/
def pyLower (s : String) : String :=
  String.mk (s.toList.map Char.toLower)

/-- Split on newline characters, keeping empty pieces: `content` as the
list of its lines, as the `re.MULTILINE` anchors see them. -/
def splitLinesChars : List Char → List (List Char)
  | [] => [[]]
  | c :: rest =>
    match splitLinesChars rest with
    | [] => [[]]
    | l :: ls => if c = '\n' then [] :: l :: ls else (c :: l) :: ls

/-- The lines of a string. -/
def pyLines (s : String) : List String :=
  (splitLinesChars s.toList).map (fun cs => String.mk cs)

/-- Strict lexicographic comparison of character lists by code point:
Python's `<` on strings. -/
def charsLt : List Char → List Char → Bool
  | [], [] => false
  | [], _ :: _ => true
  | _ :: _, [] => false
  | a :: as, b :: bs => if a < b then true else if b < a then false else charsLt as bs

/-- Python's `a < b` on strings. -/
def strLtB (a b : String) : Bool :=
  charsLt a.toList b.toList

/-- Python's `a <= b` on strings. -/
def strLeB (a b : String) : Bool :=
  !(strLtB b a)

/-- Leading characters accepted by `\s` inside one line. -/
def dropWs (cs : List Char) : List Char :=
  match cs with
  | [] => []
  | c :: rest => if c = ' ' ∨ c = '\t' then dropWs rest else c :: rest

/-- Whether `cs` starts with the literal `pat`. -/
def startsWithChars (pat cs : List Char) : Bool :=
  match pat, cs with
  | [], _ => true
  | _ :: _, [] => false
  | p :: ps, c :: rest => p == c && startsWithChars ps rest

/-- Drop the literal `pat` from the front of `cs`, if present. -/
def dropLit (pat cs : List Char) : Option (List Char) :=
  match pat, cs with
  | [], rest => some rest
  | _ :: _, [] => none
  | p :: ps, c :: rest => if p == c then dropLit ps rest else none

/-- Whether `cs` ends with the literal `pat`. -/
def endsWithChars (pat cs : List Char) : Bool :=
  startsWithChars pat.reverse cs.reverse

/-- The characters after the first occurrence of the literal `pat`, if it
occurs. -/
def afterLitFirst (pat : List Char) : List Char → Option (List Char)
  | [] => dropLit pat []
  | c :: rest =>
    match dropLit pat (c :: rest) with
    | some r => some r
    | none => afterLitFirst pat rest

/-- A quote character of the pattern class `['\"]`. -/
def isQuote (c : Char) : Bool :=
  c == '\'' || c == '"'

/-- Take the longest nonempty run of non-quote characters, as captured by
`([^'\"]+)`. Returns the captured run and the remaining characters. -/
def takeNonQuote (cs : List Char) : List Char × List Char :=
  match cs with
  | [] => ([], [])
  | c :: rest =>
    if isQuote c then ([], c :: rest)
    else
      let p := takeNonQuote rest
      (c :: p.1, p.2)

/-- Try to match `['\"]([^'\"]+)['\"]` at exactly this position. -/
def quotedHere (cs : List Char) : Option (List Char) :=
  match cs with
  | [] => none
  | c :: rest =>
    if isQuote c then
      match takeNonQuote rest with
      | ([], _) => none
      | (cap, rest2) =>
        match rest2 with
        | [] => none
        | c2 :: _ => if isQuote c2 then some cap else none
    else none

/-- Scanner for `re.findall(r"['\"]([^'\"]+)['\"]", s)`: outside a
candidate match (`none`) a quote opens one; inside (`some acc`, reversed
capture so far) a quote closes the match when at least one character was
captured, and otherwise becomes the new opening quote — exactly the
positions the regex engine tries for its leftmost non-overlapping
matches. -/
def scanQuoted : List Char → Option (List Char) → List (List Char)
  | [], _ => []
  | c :: rest, none =>
    if isQuote c then scanQuoted rest (some []) else scanQuoted rest none
  | c :: rest, some acc =>
    if isQuote c then
      if acc.isEmpty then scanQuoted rest (some [])
      else acc.reverse :: scanQuoted rest none
    else scanQuoted rest (some (c :: acc))

/-- `re.findall(r"['\"]([^'\"]+)['\"]", s)`: all leftmost non-overlapping
matches of a quoted nonempty literal. -/
def findQuotedChars (cs : List Char) : List (List Char) :=
  scanQuoted cs none

/-- String-level wrapper for `re.findall(r"['\"]([^'\"]+)['\"]", s)`. -/
def findQuoted (s : String) : List String :=
  (findQuotedChars s.toList).map (fun cs => String.mk cs)

/-- Match `['\"]([^'\"]+)['\"]` starting anywhere in `cs`
(`re.search` of the quoted-literal pattern). -/
def searchQuoted (s : String) : Option String :=
  (findQuoted s).head?

/-- After `revision` (and optional `: str`), match `\s*=\s*` then a quoted
literal, returning the capture. -/
def matchEqQuoted (cs : List Char) : Option String :=
  match dropLit ['='] (dropWs cs) with
  | none => none
  | some rest =>
    match quotedHere (dropWs rest) with
    | some cap => some (String.mk cap)
    | none => none

/-- One line against `^revision:\s*str\s*=\s*['\"]([^'\"]+)['\"]`. -/
def lineRevisionTyped (line : String) : Option String :=
  match dropLit "revision:".toList line.toList with
  | none => none
  | some rest =>
    match dropLit "str".toList (dropWs rest) with
    | none => none
    | some rest2 => matchEqQuoted rest2

/-- One line against `^revision\s*=\s*['\"]([^'\"]+)['\"]`. -/
def lineRevisionBare (line : String) : Option String :=
  match dropLit "revision".toList line.toList with
  | none => none
  | some rest => matchEqQuoted rest

/-- Capture `(.+?)$`: the nonempty rest of the line after `\s*`. -/
def restOfLine (cs : List Char) : Option String :=
  match dropWs cs with
  | [] => none
  | rest => some (String.mk rest)

/-- One line against the typed pattern
`^down_revision:\s*(?:Union\[str,\s*None\]\s*=|str\s*=|=)\s*(.+?)$`. -/
def lineDownTyped (line : String) : Option String :=
  match dropLit "down_revision:".toList line.toList with
  | none => none
  | some rest =>
    let body := dropWs rest
    match dropLit "Union[str,".toList body with
    | some r1 =>
      match dropLit "None]".toList (dropWs r1) with
      | some r2 =>
        match dropLit ['='] (dropWs r2) with
        | some r3 => restOfLine r3
        | none => none
      | none => none
    | none =>
      match dropLit "str".toList body with
      | some r1 =>
        match dropLit ['='] (dropWs r1) with
        | some r2 => restOfLine r2
        | none => none
      | none =>
        match dropLit ['='] body with
        | some r1 => restOfLine r1
        | none => none

/-- One line against `^down_revision\s*=\s*(.+?)$`. -/
def lineDownBare (line : String) : Option String :=
  match dropLit "down_revision".toList line.toList with
  | none => none
  | some rest =>
    match dropLit ['='] (dropWs rest) with
    | some r1 => restOfLine r1
    | none => none

/-- First line of `content` matched by `f`, in order
(`re.search` with `re.MULTILINE` of a `^`-anchored pattern). -/
def firstLineMatch (f : String → Option String) (content : String) : Option String :=
  (pyLines content).findSome? f

/-- The `revision` extraction of `parse_migration_file`: the typed pattern
first, then the bare pattern. -/
def extractRevision (content : String) : Option String :=
  match firstLineMatch lineRevisionTyped content with
  | some r => some r
  | none => firstLineMatch lineRevisionBare content

/-- The `down_revision` extraction of `parse_migration_file`: the typed
pattern first, then the bare pattern.  The result is the raw right-hand
side text of the assignment. -/
def extractDown (content : String) : Option String :=
  match firstLineMatch lineDownTyped content with
  | some r => some r
  | none => firstLineMatch lineDownBare content

/-- Find the first index `k ≥ 1` such that `"""` occurs at `k`, and return
the characters before it: the `(.+?)` capture of `^"""(.+?)"""` with
`re.DOTALL`. -/
def docBody (cs : List Char) : Option (List Char) :=
  match cs with
  | [] => none
  | c :: rest =>
    if startsWithChars ['"', '"', '"'] rest then some [c]
    else
      match docBody rest with
      | some body => some (c :: body)
      | none => none

/-- `re.search(r'^"""(.+?)"""', content, re.DOTALL)`: a docstring opening
at the very start of the file. -/
def extractDocstring (content : String) : Option String :=
  match dropLit ['"', '"', '"'] content.toList with
  | none => none
  | some rest =>
    match docBody rest with
    | some body => some (String.mk body)
    | none => none

/-- One line against `Create Date:\s*(.+?)$` (pattern not `^`-anchored, so
the literal may start anywhere in the line). -/
def lineCreateDate (line : String) : Option String :=
  match afterLitFirst "Create Date:".toList line.toList with
  | some rest => restOfLine rest
  | none => none

/-- The `Create Date` extraction of `parse_migration_file`. -/
def extractCreateDate (content : String) : Option String :=
  firstLineMatch lineCreateDate content

/-- `Path(filename).stem`: the filename without its last extension. -/
def stemOf (filename : String) : String :=
  let cs := filename.toList
  if cs.contains '.' then
    String.mk (((cs.reverse.dropWhile (fun c => !(c == '.'))).drop 1).reverse)
  else filename

/-- Interpretation of the extracted `down_revision` text
(`parser.py` lines 39–50). -/
def parseDown (down : Option String) : DownRev :=
  match down with
  | none => DownRev.null
  | some raw =>
    let down_str := pyStrip raw
    if down_str = "None" then DownRev.null
    else if startsWithChars "(".toList down_str.toList then
      match findQuoted down_str with
      | [] => DownRev.null
      | revs => DownRev.tup revs
    else
      match searchQuoted down_str with
      | some r => DownRev.single r
      | none => DownRev.null

/-- `len(tuple) > 1` check behind `is_merge`. -/
def downIsMergeTuple (d : DownRev) : Bool :=
  match d with
  | DownRev.tup ts => decide (ts.length > 1)
  | _ => false

/-- `parse_migration_file` from `src/alembic_viewer/parser.py`, with the
file's text passed explicitly in place of the `Path` read. -/
def parse_migration_file (filename content : String) : Option Migration :=
  match extractRevision content with
  | none => none
  | some revision =>
    let down_revision := parseDown (extractDown content)
    let message :=
      match extractDocstring content with
      | some doc => (pyLines (pyStrip doc)).headD (pyStrip doc)
      | none => stemOf filename
    let create_date :=
      match extractCreateDate content with
      | some d => pyStrip d
      | none => ""
    some
      { revision := revision
        down_revision := down_revision
        message := message
        filename := filename
        create_date := create_date
        is_merge := downIsMergeTuple down_revision }

/-! ### Migration set loader (`parser.py`, `load_migrations`)

The directory is modelled as `Option (List (String × String))`: `none`
when `versions_path.exists()` is false, otherwise the directory listing as
(filename, contents) pairs. -/

/-- `load_migrations` from `src/alembic_viewer/parser.py`. -/
def load_migrations (dir : Option (List (String × String))) : Collection :=
  match dir with
  | none => []
  | some files =>
    files.foldl
      (fun acc file =>
        if endsWithChars ".py".toList file.1.toList
            && !(startsWithChars "__".toList file.1.toList) then
          match parse_migration_file file.1 file.2 with
          | some m =>
            -- dict insert `migrations[migration.revision] = migration`
            if acc.any (fun e => e.1 == m.revision) then
              acc.map (fun e => if e.1 == m.revision then (e.1, m) else e)
            else acc ++ [(m.revision, m)]
          | none => acc
        else acc)
      []

/-! ### Graph builder (`parser.py`, `build_graph_structure`) -/

/-- The revisions a `down_revision` value references, as a list: none for
`None`, the singleton for a string, the elements for a tuple. -/
def downList (d : DownRev) : List String :=
  match d with
  | DownRev.null => []
  | DownRev.single s => [s]
  | DownRev.tup ts => ts

/-- One iteration of the `build_graph_structure` loop body. -/
def buildStep (mig : Collection) (cp : AdjMap × AdjMap) (e : String × Migration) :
    AdjMap × AdjMap :=
  match e.2.down_revision with
  | DownRev.null => (cp.1, aset cp.2 e.1 [])
  | DownRev.tup ts =>
    ts.foldl
      (fun cp2 parent =>
        if keyMem mig parent then
          (aappend cp2.1 parent e.1, aappend cp2.2 e.1 parent)
        else cp2)
      cp
  | DownRev.single d =>
    if keyMem mig d then
      (aappend cp.1 d e.1, aappend cp.2 e.1 d)
    else cp

/-- `build_graph_structure` from `src/alembic_viewer/parser.py`. -/
def build_graph_structure (mig : Collection) : AdjMap × AdjMap :=
  mig.foldl (buildStep mig) ([], [])

/-- `find_heads` from `src/alembic_viewer/parser.py`. -/
def find_heads (mig : Collection) (children : AdjMap) : List String :=
  (mig.map Prod.fst).filter (fun rev => (aget children rev).isEmpty)

/-- `find_roots` from `src/alembic_viewer/parser.py`. -/
def find_roots (mig : Collection) (parents : AdjMap) : List String :=
  (mig.map Prod.fst).filter (fun rev => (aget parents rev).isEmpty)

/-! ### Layout engine (`canvas.py`, `GraphCanvas._calculate_positions`)

`get_level` is a recursion over a shared mutable memo `levels` with an
in-progress set used as a cycle guard; each recursive call receives a copy
of the set, so the set is threaded functionally.  The recursion depth is
bounded in the source by the strict growth of the in-progress set; here
that bound is an explicit fuel argument, and fuel sufficiency is proved
(`get_level_total`, `compute_levels_total`). -/

/-- `get_level(rev, visited_stack)` from `_calculate_positions`, returning
the level together with the updated memo, or `none` when the fuel runs
out (shown impossible for the fuel used by `compute_levels`).  The
`for parent in parent_revs` loop of the source is the inner `foldlM`
threading the running `max_parent_level` and the shared memo. -/
def get_level (mig : Collection) (pm : AdjMap) :
    Nat → String → List String → Levels → Option (Int × Levels)
  | 0, _, _, _ => none
  | fuel + 1, rev, stack, levels =>
    if rev ∈ stack then some (lgetD levels rev 0, levels)
    else if lmem levels rev then some (lgetD levels rev 0, levels)
    else
      let parent_revs := aget pm rev
      if parent_revs.isEmpty then some (0, lset levels rev 0)
      else
        match parent_revs.foldlM
            (fun (st : Int × Levels) p =>
              if keyMem mig p then
                match get_level mig pm fuel p (rev :: stack) st.2 with
                | none => none
                | some r => some (max st.1 r.1, r.2)
              else some st)
            ((-1 : Int), levels) with
        | none => none
        | some (maxp, levels1) => some (maxp + 1, lset levels1 rev (maxp + 1))

/-- The parent loop of `get_level` as a standalone function (child calls
run at fuel `fuel` with the extended in-progress stack). -/
def level_fold (mig : Collection) (pm : AdjMap) (fuel : Nat)
    (stack : List String) (ps : List String) (acc : Int) (levels : Levels) :
    Option (Int × Levels) :=
  ps.foldlM
    (fun (st : Int × Levels) p =>
      if keyMem mig p then
        match get_level mig pm fuel p stack st.2 with
        | none => none
        | some r => some (max st.1 r.1, r.2)
      else some st)
    (acc, levels)

/-- The fuel `compute_levels` runs `get_level` with. -/
def levelFuel (mig : Collection) : Nat :=
  mig.length + 1

/-- The level computation of `_calculate_positions`: seed every root at
level 0, then run `get_level` for every revision of the collection,
threading the memo. -/
def compute_levels (mig : Collection) (pm : AdjMap) : Option Levels :=
  let levels0 := (find_roots mig pm).foldl (fun lv r => lset lv r 0) []
  mig.foldlM
    (fun lv e => (get_level mig pm (levelFuel mig) e.1 [] lv).map Prod.snd)
    levels0

/-- Sort key of `_calculate_positions` and `find_nodes`:
`migrations[r].create_date if migrations[r].create_date else ""`. -/
def dateKey (mig : Collection) (r : String) : String :=
  match mig.find? (fun e => e.1 == r) with
  | some e => e.2.create_date
  | none => ""

/-- Stable insertion into an ascending run: the new element goes after
every element whose key is `≤` its own, as Python's stable `sorted`
places it. -/
def sortInsert (mig : Collection) (x : String) : List String → List String
  | [] => [x]
  | y :: ys =>
    if strLeB (dateKey mig y) (dateKey mig x) then y :: sortInsert mig x ys
    else x :: y :: ys

/-- `sorted(l, key=lambda r: create_date or "")`: a stable ascending sort
by `dateKey`. -/
def sortByDate (mig : Collection) (l : List String) : List String :=
  l.foldl (fun acc x => sortInsert mig x acc) []

/-- Group map lookup `level_groups[k]` (as a list, empty when absent). -/
def gget (g : List (Int × List String)) (k : Int) : List String :=
  (entryFind? g k).getD []

/-- `defaultdict(list)` append on the level-group map. -/
def gappend (g : List (Int × List String)) (k : Int) (v : String) :
    List (Int × List String) :=
  entryAppendOne g k v

/-- `for rev, level in levels.items(): level_groups[level].append(rev)` —
groups in the memo's insertion order. -/
def buildGroups (levels : Levels) : List (Int × List String) :=
  levels.foldl (fun g e => gappend g e.2 e.1) []

/-- Spacing constant `COLUMN_WIDTH` of `GraphCanvas`. -/
def COLUMN_WIDTH : Int := 150
/-- Spacing constant `LEVEL_HEIGHT` of `GraphCanvas`. -/
def LEVEL_HEIGHT : Int := 100
/-- `NODE_RADIUS` of `GraphCanvas`. -/
def NODE_RADIUS : Int := 32

/-- The `NodePosition` record `_calculate_positions` builds for the node
at 0-based column `col` of level `level`. -/
def mkNodePos (level : Int) (col : Nat) : NodePosition :=
  { x := 100 + (col : Int) * COLUMN_WIDTH
    y := 50 + level * LEVEL_HEIGHT
    level := level
    column := col }

/-- The coordinate assignment of `_calculate_positions` for one sorted
level group. -/
def assignGroup (ps : List (String × NodePosition)) (level : Int)
    (sorted : List String) : List (String × NodePosition) :=
  (sorted.enum).foldl (fun acc ce => pset acc ce.2 (mkNodePos level ce.1)) ps

/-- `GraphCanvas._calculate_positions`: levels, grouping, per-level stable
sort by creation date, and coordinate assignment. `none` only when the
level computation runs out of fuel (shown impossible). -/
def calculate_positions (mig : Collection) (pm : AdjMap) :
    Option (List (String × NodePosition)) :=
  if mig.isEmpty then some []
  else
    match compute_levels mig pm with
    | none => none
    | some levels =>
      let groups := buildGroups levels
      some (groups.foldl
        (fun ps g => assignGroup ps g.1 (sortByDate mig g.2)) [])

/-! ### Graph queries (`canvas.py`, `GraphCanvas.find_nodes`) -/

/-- Python's `needle in hay` on strings, at the character-list level:
`startsWithChars` at some suffix. -/
def charsContain (needle : List Char) : List Char → Bool
  | [] => startsWithChars needle []
  | h :: hs => startsWithChars needle (h :: hs) || charsContain needle hs

/-- Python's substring test `needle in hay`. -/
def substrOf (needle hay : String) : Bool :=
  charsContain needle.toList hay.toList

/-- `GraphCanvas.find_nodes`: normalize the query, return the first exact
(case-insensitive) revision match as a singleton, otherwise collect
substring matches over revision ids and messages and sort them by
creation date. -/
def find_nodes (mig : Collection) (search_text : String) : List String :=
  let search_lower := pyStrip (pyLower search_text)
  if search_lower = "" then []
  else
    match mig.find? (fun e => pyLower e.1 == search_lower) with
    | some e => [e.1]
    | none =>
      let results := mig.foldl
        (fun acc e =>
          if (substrOf search_lower (pyLower e.1)
            || substrOf search_lower (pyLower e.2.message))
            && !(acc.contains e.1) then
            acc ++ [e.1]
          else acc)
        []
      sortByDate mig results

/-! ### Interaction controller (`canvas.py`) -/

/-- `GraphCanvas._get_node_at_position`: scan the positions dict in order
and return the first node whose scaled center is within the scaled node
radius of the point.  The source compares
`sqrt(dx*dx + dy*dy) <= radius`; both sides being nonnegative, this is
modelled by the equivalent squared comparison. -/
def get_node_at_position (positions : List (String × NodePosition))
    (scale_factor : ℚ) (canvas_x canvas_y : ℚ) : Option String :=
  match positions with
  | [] => none
  | e :: rest =>
    let dx := canvas_x - (e.2.x : ℚ) * scale_factor
    let dy := canvas_y - (e.2.y : ℚ) * scale_factor
    let scaled_radius := (NODE_RADIUS : ℚ) * scale_factor
    if dx * dx + dy * dy ≤ scaled_radius * scaled_radius then some e.1
    else get_node_at_position rest scale_factor canvas_x canvas_y

/-- The zoom factor chosen by `_on_scroll` from the scroll direction:
`1.1` for scroll-up, `0.9` for scroll-down. -/
def scroll_factor (up : Bool) : ℚ :=
  if up then 11/10 else 9/10

/-- The scale update of `GraphCanvas._on_scroll`: multiply by the factor
and keep the result only when it stays within `[0.3, 3.0]`. -/
def on_scroll_scale (scale_factor : ℚ) (factor : ℚ) : ℚ :=
  let new_scale := scale_factor * factor
  if 3/10 ≤ new_scale ∧ new_scale ≤ 3 then new_scale else scale_factor

/-- The view state of `GraphCanvas` relevant to data and selection. -/
structure CanvasState where
  migrations : Collection
  graph_children : AdjMap
  graph_parents : AdjMap
  positions : List (String × NodePosition)
  selected_node : Option String
  scale_factor : ℚ
deriving Repr, DecidableEq

/-- `GraphCanvas.set_data`: replace the data triple, recompute positions,
redraw and reset the view (scale back to 1).  The selection field is not
touched by any of these steps. -/
def set_data (st : CanvasState) (mig : Collection) (children parents : AdjMap) :
    CanvasState :=
  { migrations := mig
    graph_children := children
    graph_parents := parents
    positions := (calculate_positions mig parents).getD []
    selected_node := st.selected_node
    scale_factor := 1 }

/-! ### Date filter (`app.py`, `AlembicViewerApp._apply_date_filter`) -/

/-- The per-migration keep test of `_apply_date_filter`, with
`create_date = migration.create_date[:10] if migration.create_date else ""`. -/
def dateFilterKeep (date_from date_to : String) (m : Migration) : Bool :=
  let create_date := if m.create_date ≠ "" then m.create_date.take 10 else ""
  !(date_from ≠ "" && strLtB create_date date_from)
    && !(date_to ≠ "" && strLtB date_to create_date)

/-- `AlembicViewerApp._apply_date_filter`: trim the two bounds, return the
state unchanged when both are empty or when the filtered collection is
empty (the source only shows a message box there), otherwise rebuild the
graph from the filtered collection and push it with `set_data`. -/
def apply_date_filter (st : CanvasState) (all_migrations : Collection)
    (date_from_raw date_to_raw : String) : CanvasState :=
  let date_from := pyStrip date_from_raw
  let date_to := pyStrip date_to_raw
  if date_from = "" ∧ date_to = "" then st
  else
    let filtered := all_migrations.filter (fun e => dateFilterKeep date_from date_to e.2)
    if filtered.isEmpty then st
    else
      let cp := build_graph_structure filtered
      set_data st filtered cp.1 cp.2

/-! ### Derived notions used by the verification -/

/-- The parent list `build_graph_structure` records for a migration `m` of
the collection: the referenced revisions present in the collection, in
declaration order. -/
def downKeys (mig : Collection) (m : Migration) : List String :=
  (downList m.down_revision).filter (fun p => keyMem mig p)

/-- Memo extension: every binding of `lv` survives with its value in `lv'`. -/
def LevelsExtends (lv lv' : Levels) : Prop :=
  ∀ k v, lget lv k = some v → lget lv' k = some v

/-- The write invariant of `get_level` on acyclic input: every memo entry
is `0` for a revision with no recorded parents, and otherwise is one more
than the running maximum (started at `-1`) of the memo values of its
parents present in the collection, all of which are in the memo. -/
def GoodLevels (mig : Collection) (pm : AdjMap) (lv : Levels) : Prop :=
  ∀ r v, lget lv r = some v →
    (aget pm r = [] ∧ v = 0) ∨
    (aget pm r ≠ [] ∧ ∃ vals : List Int,
      List.Forall₂ (fun p w => lget lv p = some w)
        ((aget pm r).filter (fun p => keyMem mig p)) vals ∧
      v = vals.foldl max (-1) + 1)

/-- The number of collection keys not on the in-progress stack: the
quantity the fuel of `get_level` has to dominate. -/
def countFree (mig : Collection) (stack : List String) : Nat :=
  ((mig.map Prod.fst).filter (fun k => !(stack.contains k))).length

/-- A ranking function certifying that the recorded dependency edges
(child to parent present in the collection) are acyclic: every edge
strictly decreases the rank. -/
def RankOk (mig : Collection) (pm : AdjMap) (rank : String → Nat) : Prop :=
  ∀ ce ∈ pm, ∀ p ∈ ce.2, keyMem mig p = true → rank p < rank ce.1

/-- The squared distance `_get_node_at_position` compares against the
squared scaled radius: `dx*dx + dy*dy` for the scaled node center. -/
def hitDistSq (p : NodePosition) (scale_factor x y : ℚ) : ℚ :=
  (x - (p.x : ℚ) * scale_factor) * (x - (p.x : ℚ) * scale_factor)
    + (y - (p.y : ℚ) * scale_factor) * (y - (p.y : ℚ) * scale_factor)

/-! ### Concrete fixtures used by witnesses and counterexamples -/

/-- A migration record with the fields the graph engine reads. -/
def mkMigration (rev : String) (down : DownRev) (date : String) : Migration :=
  { revision := rev
    down_revision := down
    message := rev ++ " msg"
    filename := rev ++ ".py"
    create_date := date
    is_merge := downIsMergeTuple down }

/-- Fixture: a root, a child and a merge with one dangling reference. -/
def figBuild : Collection :=
  [("r", mkMigration "r" DownRev.null "2024-01-01"),
   ("c", mkMigration "c" (DownRev.single "r") "2024-01-02"),
   ("m", mkMigration "m" (DownRev.tup ["r", "c", "ghost"]) "2024-01-03")]

/-- Fixture: a three-revision linear chain. -/
def figChain : Collection :=
  [("rev1", mkMigration "rev1" DownRev.null "2024-01-01"),
   ("rev2", mkMigration "rev2" (DownRev.single "rev1") "2024-01-02"),
   ("rev3", mkMigration "rev3" (DownRev.single "rev2") "2024-01-03")]

/-- A ranking of `figChain` witnessing that its parent graph is acyclic. -/
def figChainRank (r : String) : Nat :=
  if r = "rev1" then 0 else if r = "rev2" then 1 else 2

/-- Fixture for the layout-order counterexample: the collection iterates
`w, u, v, r` (so `u` precedes `v`), all creation dates are equal, `u` and
`v` both sit at level 1. -/
def figOrder : Collection :=
  [("w", mkMigration "w" (DownRev.single "v") ""),
   ("u", mkMigration "u" (DownRev.single "r") ""),
   ("v", mkMigration "v" (DownRev.single "r") ""),
   ("r", mkMigration "r" DownRev.null "")]

/-- The parents map `build_graph_structure` derives from `figOrder`. -/
def figOrderParents : AdjMap :=
  (build_graph_structure figOrder).2

/-- Fixture: two revisions whose declared dependencies form a cycle. -/
def figCycle : Collection :=
  [("a", mkMigration "a" (DownRev.single "b") ""),
   ("b", mkMigration "b" (DownRev.single "a") "")]

/-- The parents map `build_graph_structure` derives from `figCycle`. -/
def figCycleParents : AdjMap :=
  (build_graph_structure figCycle).2

/-- Fixture for search: a revision `abc123` plus a revision whose message
contains `abc123` as a substring. -/
def figSearch : Collection :=
  [("xyz",
    { revision := "xyz"
      down_revision := DownRev.null
      message := "abc123 rollback"
      filename := "xyz.py"
      create_date := "" }),
   ("abc123", mkMigration "abc123" DownRev.null "2024-01-02")]

/-- Fixture for hit testing: two nodes whose circles both contain the
probe point `(100, 50)`; the first in iteration order is 30 away, the
second only 5. -/
def figPositions : List (String × NodePosition) :=
  [("a", { x := 130, y := 50, level := 0, column := 0 }),
   ("b", { x := 105, y := 50, level := 0, column := 0 })]

/-- Fixture: a canvas state with node `a` selected. -/
def figState : CanvasState :=
  { migrations := figChain
    graph_children := (build_graph_structure figChain).1
    graph_parents := (build_graph_structure figChain).2
    positions := (calculate_positions figChain (build_graph_structure figChain).2).getD []
    selected_node := some "rev2"
    scale_factor := 1 }

/-- Fixture: the text of a migration whose `down_revision` is the empty
tuple `()`. -/
def figEmptyTuple : String :=
  "revision = 'abc'\ndown_revision = ()\n"

/-! ## Lemmas about the insertion-ordered dict model -/

section DictLemmas

variable {α β : Type} {γ : Type} [BEq α] [LawfulBEq α]

theorem entryFind?_nil (k : α) : entryFind? ([] : List (α × β)) k = none := rfl

theorem entryFind?_cons (e : α × β) (m : List (α × β)) (k : α) :
    entryFind? (e :: m) k = if e.1 == k then some e.2 else entryFind? m k := by
  by_cases h : e.1 == k
  · simp [entryFind?, List.find?_cons_of_pos, h]
  · simp only [entryFind?, List.find?]
    simp [h]

theorem entryHas_nil (k : α) : entryHas ([] : List (α × β)) k = false := rfl

theorem entryHas_cons (e : α × β) (m : List (α × β)) (k : α) :
    entryHas (e :: m) k = (e.1 == k || entryHas m k) := by
  simp [entryHas]

theorem entryHas_false_iff (m : List (α × β)) (k : α) :
    entryHas m k = false ↔ entryFind? m k = none := by
  induction m with
  | nil => simp [entryHas_nil, entryFind?_nil]
  | cons e m ih =>
    rw [entryHas_cons, entryFind?_cons]
    by_cases h : e.1 == k
    · simp [h]
    · simp [h, ih]

theorem entryHas_true_iff (m : List (α × β)) (k : α) :
    entryHas m k = true ↔ ∃ v, entryFind? m k = some v := by
  induction m with
  | nil => simp [entryHas_nil, entryFind?_nil]
  | cons e m ih =>
    rw [entryHas_cons, entryFind?_cons]
    by_cases h : e.1 == k
    · simp [h]
    · simp [h, ih]

theorem entryFind?_mem {m : List (α × β)} {k : α} {v : β}
    (h : entryFind? m k = some v) : (k, v) ∈ m := by
  induction m with
  | nil => simp [entryFind?_nil] at h
  | cons e m ih =>
    rw [entryFind?_cons] at h
    by_cases he : e.1 == k
    · rw [if_pos he] at h
      have hk : e.1 = k := by simpa using he
      have : e = (k, v) := by
        cases e
        simp only at hk
        simp only [Option.some.injEq] at h
        simp [hk, ← h]
      simp [this]
    · rw [if_neg he] at h
      exact List.mem_cons_of_mem _ (ih h)

theorem entryHas_key_mem (m : List (α × β)) (k : α) :
    entryHas m k = true ↔ k ∈ m.map Prod.fst := by
  induction m with
  | nil => simp [entryHas_nil]
  | cons e m ih =>
    rw [entryHas_cons]
    by_cases h : e.1 == k
    · have : e.1 = k := by simpa using h
      simp [h, this]
    · have : ¬ e.1 = k := by simpa using h
      simp [h, ih, this, Ne.symm this]

theorem entryFind?_append (m l : List (α × β)) (k : α) :
    entryFind? (m ++ l) k =
      match entryFind? m k with
      | some v => some v
      | none => entryFind? l k := by
  induction m with
  | nil => simp [entryFind?_nil]
  | cons e m ih =>
    rw [List.cons_append, entryFind?_cons, entryFind?_cons]
    by_cases h : e.1 == k
    · simp [h]
    · simp [h, ih]

theorem entryFind?_mapSet_self (m : List (α × β)) (k : α) (v : β) :
    entryFind? (m.map (fun e => if e.1 == k then (e.1, v) else e)) k
      = (entryFind? m k).map (fun _ => v) := by
  induction m with
  | nil => simp [entryFind?_nil]
  | cons e m ih =>
    by_cases h : e.1 == k
    · simp only [List.map_cons, if_pos h]
      rw [entryFind?_cons, entryFind?_cons]
      simp [h]
    · simp only [List.map_cons, if_neg h]
      rw [entryFind?_cons, entryFind?_cons, if_neg h, if_neg h, ih]

theorem entryFind?_mapSet_other {j k : α} (m : List (α × β)) (v : β)
    (h : (j == k) = false) :
    entryFind? (m.map (fun e => if e.1 == k then (e.1, v) else e)) j
      = entryFind? m j := by
  induction m with
  | nil => simp
  | cons e m ih =>
    by_cases he : e.1 == k
    · have hek : e.1 = k := by simpa using he
      simp only [List.map_cons, if_pos he]
      rw [entryFind?_cons, entryFind?_cons]
      have : (e.1 == j) = false := by
        simp only [hek]
        simp only [beq_eq_false_iff_ne] at h ⊢
        exact fun hh => h hh.symm
      simp [this, ih]
    · simp only [List.map_cons, if_neg he]
      rw [entryFind?_cons, entryFind?_cons, ih]

theorem entrySet_find_self (m : List (α × β)) (k : α) (v : β) :
    entryFind? (entrySet m k v) k = some v := by
  unfold entrySet
  by_cases h : entryHas m k
  · rw [if_pos h, entryFind?_mapSet_self]
    obtain ⟨w, hw⟩ := (entryHas_true_iff m k).mp h
    simp [hw]
  · rw [if_neg h, entryFind?_append]
    rw [(entryHas_false_iff m k).mp (by simpa using h)]
    rw [entryFind?_cons]
    simp

theorem entrySet_find_other {j k : α} (m : List (α × β)) (v : β) (h : j ≠ k) :
    entryFind? (entrySet m k v) j = entryFind? m j := by
  unfold entrySet
  by_cases hh : entryHas m k
  · rw [if_pos hh, entryFind?_mapSet_other]
    simpa using h
  · rw [if_neg hh, entryFind?_append]
    cases hm : entryFind? m j with
    | some w => simp
    | none =>
      simp only []
      rw [entryFind?_cons]
      have : (k == j) = false := by
        simp only [beq_eq_false_iff_ne]
        exact fun hkj => h hkj.symm
      simp [this, entryFind?_nil]

theorem entryFind?_mapAppend_self (m : List (α × List γ)) (k : α) (v : γ) :
    entryFind? (m.map (fun e => if e.1 == k then (e.1, e.2 ++ [v]) else e)) k
      = (entryFind? m k).map (fun l => l ++ [v]) := by
  induction m with
  | nil => simp [entryFind?_nil]
  | cons e m ih =>
    by_cases h : e.1 == k
    · simp only [List.map_cons, if_pos h]
      rw [entryFind?_cons, entryFind?_cons]
      simp [h]
    · simp only [List.map_cons, if_neg h]
      rw [entryFind?_cons, entryFind?_cons, if_neg h, if_neg h, ih]

theorem entryFind?_mapAppend_other {j k : α} (m : List (α × List γ)) (v : γ)
    (h : (j == k) = false) :
    entryFind? (m.map (fun e => if e.1 == k then (e.1, e.2 ++ [v]) else e)) j
      = entryFind? m j := by
  induction m with
  | nil => simp
  | cons e m ih =>
    by_cases he : e.1 == k
    · have hek : e.1 = k := by simpa using he
      simp only [List.map_cons, if_pos he]
      rw [entryFind?_cons, entryFind?_cons]
      have : (e.1 == j) = false := by
        simp only [hek]
        simp only [beq_eq_false_iff_ne] at h ⊢
        exact fun hh => h hh.symm
      simp [this, ih]
    · simp only [List.map_cons, if_neg he]
      rw [entryFind?_cons, entryFind?_cons, ih]

theorem entryAppendOne_find_self (m : List (α × List γ)) (k : α) (v : γ) :
    entryFind? (entryAppendOne m k v) k
      = some ((entryFind? m k).getD [] ++ [v]) := by
  unfold entryAppendOne
  by_cases h : entryHas m k
  · rw [if_pos h, entryFind?_mapAppend_self]
    obtain ⟨w, hw⟩ := (entryHas_true_iff m k).mp h
    simp [hw]
  · rw [if_neg h, entryFind?_append]
    rw [(entryHas_false_iff m k).mp (by simpa using h)]
    rw [entryFind?_cons]
    simp

theorem entryAppendOne_find_other {j k : α} (m : List (α × List γ)) (v : γ)
    (h : j ≠ k) :
    entryFind? (entryAppendOne m k v) j = entryFind? m j := by
  unfold entryAppendOne
  by_cases hh : entryHas m k
  · rw [if_pos hh, entryFind?_mapAppend_other]
    simpa using h
  · rw [if_neg hh, entryFind?_append]
    cases hm : entryFind? m j with
    | some w => simp
    | none =>
      simp only []
      rw [entryFind?_cons]
      have : (k == j) = false := by
        simp only [beq_eq_false_iff_ne]
        exact fun hkj => h hkj.symm
      simp [this, entryFind?_nil]

theorem entryHas_entrySet (m : List (α × β)) (k : α) (v : β) (j : α) :
    entryHas (entrySet m k v) j = (entryHas m j || j == k) := by
  by_cases hjk : j = k
  · subst hjk
    have h1 : entryFind? (entrySet m j v) j = some v := entrySet_find_self m j v
    have := (entryHas_true_iff (entrySet m j v) j).mpr ⟨v, h1⟩
    simp [this]
  · have h1 := entrySet_find_other m v hjk
    by_cases hm : entryHas m j
    · obtain ⟨w, hw⟩ := (entryHas_true_iff m j).mp hm
      have := (entryHas_true_iff (entrySet m k v) j).mpr ⟨w, by rw [h1]; exact hw⟩
      simp [this, hm]
    · have hm' : entryHas m j = false := by simpa using hm
      have h2 : entryFind? m j = none := (entryHas_false_iff m j).mp hm'
      have : entryHas (entrySet m k v) j = false := by
        rw [entryHas_false_iff, h1, h2]
      simp [this, hm', beq_eq_false_iff_ne, hjk]

theorem entryHas_entryAppendOne (m : List (α × List γ)) (k : α) (v : γ) (j : α) :
    entryHas (entryAppendOne m k v) j = (entryHas m j || j == k) := by
  by_cases hjk : j = k
  · subst hjk
    have h1 := entryAppendOne_find_self m j v
    have := (entryHas_true_iff (entryAppendOne m j v) j).mpr ⟨_, h1⟩
    simp [this]
  · have h1 := entryAppendOne_find_other m v hjk
    by_cases hm : entryHas m j
    · obtain ⟨w, hw⟩ := (entryHas_true_iff m j).mp hm
      have := (entryHas_true_iff (entryAppendOne m k v) j).mpr ⟨w, by rw [h1]; exact hw⟩
      simp [this, hm]
    · have hm' : entryHas m j = false := by simpa using hm
      have h2 : entryFind? m j = none := (entryHas_false_iff m j).mp hm'
      have : entryHas (entryAppendOne m k v) j = false := by
        rw [entryHas_false_iff, h1, h2]
      simp [this, hm', beq_eq_false_iff_ne, hjk]

end DictLemmas

/-! ## Graph-builder lemmas (claim C1) -/

theorem aget_aappend_self (m : AdjMap) (k v : String) :
    aget (aappend m k v) k = aget m k ++ [v] := by
  unfold aget aappend
  rw [entryAppendOne_find_self]
  rfl

theorem aget_aappend_other {j k : String} (m : AdjMap) (v : String)
    (h : j ≠ k) : aget (aappend m k v) j = aget m j := by
  unfold aget aappend
  rw [entryAppendOne_find_other _ _ h]

theorem aget_aset_self (m : AdjMap) (k : String) (v : List String) :
    aget (aset m k v) k = v := by
  unfold aget aset
  rw [entrySet_find_self]
  rfl

theorem aget_aset_other {j k : String} (m : AdjMap) (v : List String)
    (h : j ≠ k) : aget (aset m k v) j = aget m j := by
  unfold aget aset
  rw [entrySet_find_other _ _ h]

theorem mem_aget_aappend (m : AdjMap) (k v x q : String) :
    x ∈ aget (aappend m k v) q ↔ x ∈ aget m q ∨ (q = k ∧ x = v) := by
  by_cases hq : q = k
  · subst hq
    rw [aget_aappend_self]
    simp
  · rw [aget_aappend_other _ _ hq]
    simp [hq]

theorem tupFold_parents_self (mig : Collection) (rev : String)
    (ts : List String) (cp : AdjMap × AdjMap) :
    aget (ts.foldl
      (fun cp2 parent =>
        if keyMem mig parent then
          (aappend cp2.1 parent rev, aappend cp2.2 rev parent)
        else cp2) cp).2 rev
      = aget cp.2 rev ++ ts.filter (fun p => keyMem mig p) := by
  induction ts generalizing cp with
  | nil => simp
  | cons p ps ih =>
    simp only [List.foldl_cons, List.filter_cons]
    by_cases hp : keyMem mig p
    · rw [if_pos hp, ih]
      simp [hp, aget_aappend_self]
    · rw [if_neg hp, ih]
      simp [hp]

theorem tupFold_parents_other (mig : Collection) (rev : String)
    (ts : List String) (cp : AdjMap × AdjMap) {q : String} (hq : q ≠ rev) :
    aget (ts.foldl
      (fun cp2 parent =>
        if keyMem mig parent then
          (aappend cp2.1 parent rev, aappend cp2.2 rev parent)
        else cp2) cp).2 q
      = aget cp.2 q := by
  induction ts generalizing cp with
  | nil => simp
  | cons p ps ih =>
    simp only [List.foldl_cons]
    by_cases hp : keyMem mig p
    · rw [if_pos hp, ih]
      simp [aget_aappend_other _ _ hq]
    · rw [if_neg hp, ih]

theorem tupFold_children_mem (mig : Collection) (rev : String)
    (ts : List String) (cp : AdjMap × AdjMap) (x q : String) :
    x ∈ aget (ts.foldl
      (fun cp2 parent =>
        if keyMem mig parent then
          (aappend cp2.1 parent rev, aappend cp2.2 rev parent)
        else cp2) cp).1 q
      ↔ x ∈ aget cp.1 q ∨ (x = rev ∧ q ∈ ts.filter (fun p => keyMem mig p)) := by
  induction ts generalizing cp with
  | nil => simp
  | cons p ps ih =>
    simp only [List.foldl_cons, List.filter_cons]
    by_cases hp : keyMem mig p
    · rw [if_pos hp, ih]
      simp only [mem_aget_aappend]
      constructor
      · rintro ((h | ⟨h1, h2⟩) | ⟨h1, h2⟩)
        · exact Or.inl h
        · exact Or.inr ⟨h2, by simp [hp, h1]⟩
        · exact Or.inr ⟨h1, by simp [hp]; right; simpa [hp] using h2⟩
      · rintro (h | ⟨h1, h2⟩)
        · exact Or.inl (Or.inl h)
        · simp only [hp, if_pos, List.mem_cons] at h2
          rcases h2 with h2 | h2
          · exact Or.inl (Or.inr ⟨h2, h1⟩)
          · exact Or.inr ⟨h1, h2⟩
    · rw [if_neg hp, ih]
      simp [hp]

theorem buildStep_parents_other (mig : Collection) (cp : AdjMap × AdjMap)
    (e : String × Migration) {q : String} (hq : q ≠ e.1) :
    aget (buildStep mig cp e).2 q = aget cp.2 q := by
  cases hd : e.2.down_revision with
  | null =>
    simp only [buildStep, hd]
    exact aget_aset_other _ _ hq
  | single d =>
    simp only [buildStep, hd]
    by_cases hk : keyMem mig d
    · rw [if_pos hk]
      exact aget_aappend_other _ _ hq
    · rw [if_neg hk]
  | tup ts =>
    simp only [buildStep, hd]
    exact tupFold_parents_other mig e.1 ts cp hq

theorem buildStep_parents_self (mig : Collection) (cp : AdjMap × AdjMap)
    (e : String × Migration) (h0 : aget cp.2 e.1 = []) :
    aget (buildStep mig cp e).2 e.1 = downKeys mig e.2 := by
  cases hd : e.2.down_revision with
  | null =>
    simp only [buildStep, hd, downKeys, downList, hd, List.filter_nil]
    exact aget_aset_self _ _ _
  | single d =>
    simp only [buildStep, hd, downKeys, downList, hd]
    by_cases hk : keyMem mig d
    · rw [if_pos hk, aget_aappend_self, h0]
      simp [hk]
    · rw [if_neg hk, h0]
      simp [hk]
  | tup ts =>
    simp only [buildStep, hd, downKeys, downList, hd]
    rw [tupFold_parents_self, h0]
    simp

theorem buildStep_children_mem (mig : Collection) (cp : AdjMap × AdjMap)
    (e : String × Migration) (x q : String) :
    x ∈ aget (buildStep mig cp e).1 q
      ↔ x ∈ aget cp.1 q ∨ (x = e.1 ∧ q ∈ downKeys mig e.2) := by
  cases hd : e.2.down_revision with
  | null =>
    simp [buildStep, hd, downKeys, downList]
  | single d =>
    simp only [buildStep, hd, downKeys, downList]
    by_cases hk : keyMem mig d
    · rw [if_pos hk]
      rw [mem_aget_aappend]
      simp [hk]
      tauto
    · rw [if_neg hk]
      simp [hk]
  | tup ts =>
    simp only [buildStep, hd, downKeys, downList]
    exact tupFold_children_mem mig e.1 ts cp x q

theorem buildFold_children_mem (mig : Collection) (l : Collection)
    (cp : AdjMap × AdjMap) (x q : String) :
    x ∈ aget (l.foldl (buildStep mig) cp).1 q
      ↔ x ∈ aget cp.1 q ∨ ∃ m, (x, m) ∈ l ∧ q ∈ downKeys mig m := by
  induction l generalizing cp with
  | nil => simp
  | cons e l ih =>
    simp only [List.foldl_cons]
    rw [ih, buildStep_children_mem]
    constructor
    · rintro ((h | ⟨h1, h2⟩) | ⟨m, hm, hq⟩)
      · exact Or.inl h
      · refine Or.inr ⟨e.2, List.mem_cons.mpr (Or.inl ?_), h2⟩
        rw [h1]
      · exact Or.inr ⟨m, List.mem_cons.mpr (Or.inr hm), hq⟩
    · rintro (h | ⟨m, hm, hq⟩)
      · exact Or.inl (Or.inl h)
      · rcases List.mem_cons.mp hm with hm | hm
        · have hx : x = e.1 := by rw [← hm]
          have hm2 : m = e.2 := by rw [← hm]
          exact Or.inl (Or.inr ⟨hx, hm2 ▸ hq⟩)
        · exact Or.inr ⟨m, hm, hq⟩

theorem buildFold_parents_untouched (mig : Collection) (l : Collection)
    (cp : AdjMap × AdjMap) (q : String) :
    q ∉ l.map Prod.fst → aget (l.foldl (buildStep mig) cp).2 q = aget cp.2 q := by
  induction l generalizing cp with
  | nil =>
    intro _
    simp
  | cons e l ih =>
    intro hq
    simp only [List.map_cons, List.mem_cons] at hq
    push_neg at hq
    simp only [List.foldl_cons]
    rw [ih _ hq.2, buildStep_parents_other mig cp e hq.1]

theorem keys_unique {l : Collection} (hnd : (l.map Prod.fst).Nodup)
    {c : String} {m1 m2 : Migration} (h1 : (c, m1) ∈ l) (h2 : (c, m2) ∈ l) :
    m1 = m2 := by
  induction l with
  | nil => simp at h1
  | cons e l ih =>
    simp only [List.map_cons, List.nodup_cons] at hnd
    rcases List.mem_cons.mp h1 with h1 | h1 <;>
      rcases List.mem_cons.mp h2 with h2 | h2
    · have h12 : ((c, m1) : String × Migration) = (c, m2) := h1.trans h2.symm
      exact ((Prod.mk.injEq _ _ _ _).mp h12).2
    · exfalso
      apply hnd.1
      have hm : c ∈ l.map Prod.fst := List.mem_map_of_mem Prod.fst h2
      rwa [show e.1 = c from by rw [← h1]]
    · exfalso
      apply hnd.1
      have hm : c ∈ l.map Prod.fst := List.mem_map_of_mem Prod.fst h1
      rwa [show e.1 = c from by rw [← h2]]
    · exact ih hnd.2 h1 h2

theorem buildFold_parents_eq (mig : Collection) (l : Collection)
    (cp : AdjMap × AdjMap) :
    (l.map Prod.fst).Nodup → ∀ c mc, (c, mc) ∈ l → aget cp.2 c = [] →
    aget (l.foldl (buildStep mig) cp).2 c = downKeys mig mc := by
  induction l generalizing cp with
  | nil =>
    intro _ c mc hc _
    simp at hc
  | cons e l ih =>
    intro hnd c mc hc h0
    simp only [List.map_cons, List.nodup_cons] at hnd
    simp only [List.foldl_cons]
    rcases List.mem_cons.mp hc with hc | hc
    · have hce : c = e.1 := by rw [← hc]
      have hme : mc = e.2 := by rw [← hc]
      have hstep : aget (buildStep mig cp e).2 e.1 = downKeys mig e.2 :=
        buildStep_parents_self mig cp e (hce ▸ h0)
      have huntouched : c ∉ l.map Prod.fst := hce ▸ hnd.1
      rw [buildFold_parents_untouched mig l _ c huntouched, hce, hstep, hme]
    · have hne : c ≠ e.1 := by
        intro hcontra
        exact hnd.1 (hcontra ▸ List.mem_map_of_mem Prod.fst hc)
      have hstep : aget (buildStep mig cp e).2 c = aget cp.2 c :=
        buildStep_parents_other mig cp e hne
      exact ih _ hnd.2 c mc hc (hstep.trans h0)

/-- C1: in the maps `build_graph_structure` returns, for revisions `p` and
`c` that are keys of the collection, `c ∈ children[p]` and
`p ∈ parents[c]` hold together exactly when `c`'s `down_revision` (as the
single string, or as a member of its tuple) mentions `p`; and a
down-revision reference to a revision absent from the collection produces
no edge at all (and no error — the builder is total). -/
theorem C1_build_graph_edges (mig : Collection)
    (hnd : (mig.map Prod.fst).Nodup) :
    (∀ p c mc, (c, mc) ∈ mig → keyMem mig p = true →
      ((c ∈ aget (build_graph_structure mig).1 p ∧
        p ∈ aget (build_graph_structure mig).2 c) ↔
        p ∈ downList mc.down_revision)) ∧
    (∀ p, keyMem mig p = false →
      aget (build_graph_structure mig).1 p = [] ∧
      ∀ c, p ∉ aget (build_graph_structure mig).2 c) := by
  constructor
  · intro p c mc hc hp
    have hpar : aget (build_graph_structure mig).2 c = downKeys mig mc :=
      buildFold_parents_eq mig mig ([], []) hnd c mc hc rfl
    have hch : c ∈ aget (build_graph_structure mig).1 p ↔
        ∃ m, (c, m) ∈ mig ∧ p ∈ downKeys mig m := by
      have := buildFold_children_mem mig mig ([], []) c p
      unfold build_graph_structure
      rw [this]
      simp [aget, entryFind?_nil]
    constructor
    · rintro ⟨-, h2⟩
      rw [hpar] at h2
      exact (List.mem_filter.mp (by simpa [downKeys] using h2)).1
    · intro h
      refine ⟨?_, ?_⟩
      · rw [hch]
        refine ⟨mc, hc, ?_⟩
        simp only [downKeys]
        exact List.mem_filter.mpr ⟨h, by simpa using hp⟩
      · rw [hpar]
        simp only [downKeys]
        exact List.mem_filter.mpr ⟨h, by simpa using hp⟩
  · intro p hp
    constructor
    · rw [List.eq_nil_iff_forall_not_mem]
      intro x hx
      have : ∃ m, (x, m) ∈ mig ∧ p ∈ downKeys mig m := by
        have := buildFold_children_mem mig mig ([], []) x p
        unfold build_graph_structure at hx
        rw [this] at hx
        rcases hx with hx | hx
        · simp [aget, entryFind?_nil] at hx
        · exact hx
      obtain ⟨m, -, hpm⟩ := this
      have := (List.mem_filter.mp (by simpa [downKeys] using hpm)).2
      rw [hp] at this
      simp at this
    · intro c hcmem
      by_cases hck : keyMem mig c
      · obtain ⟨mc, hmc⟩ := (entryHas_true_iff mig c).mp hck
        have hcmig : (c, mc) ∈ mig := entryFind?_mem hmc
        have hpar : aget (build_graph_structure mig).2 c = downKeys mig mc :=
          buildFold_parents_eq mig mig ([], []) hnd c mc hcmig rfl
        rw [hpar] at hcmem
        have := (List.mem_filter.mp (by simpa [downKeys] using hcmem)).2
        rw [hp] at this
        simp at this
      · have hcnot : c ∉ mig.map Prod.fst := by
          intro hmm
          exact absurd ((entryHas_key_mem mig c).mpr hmm) (by simpa using hck)
        have : aget (build_graph_structure mig).2 c = [] := by
          unfold build_graph_structure
          rw [buildFold_parents_untouched mig mig ([], []) c hcnot]
          rfl
        rw [this] at hcmem
        simp at hcmem

theorem C1_build_graph_edges_witness :
    "m" ∈ aget (build_graph_structure figBuild).1 "r" ∧
    "r" ∈ aget (build_graph_structure figBuild).2 "m" ∧
    aget (build_graph_structure figBuild).1 "ghost" = [] := by
  have h := C1_build_graph_edges figBuild (by decide)
  have h1 := (h.1 "r" "m" (mkMigration "m" (DownRev.tup ["r", "c", "ghost"]) "2024-01-03")
    (by decide) (by decide)).mpr (by decide)
  exact ⟨h1.1, h1.2, (h.2 "ghost" (by decide)).1⟩

/-! ## Loader (claim C9) -/

/-- C9: for a directory path that does not exist on disk
(`versions_path.exists()` false, modelled as `none`), `load_migrations`
returns the empty collection rather than raising or returning a failure
value — the function is total and this branch returns the empty dict. -/
theorem C9_load_missing_directory : load_migrations none = ([] : Collection) :=
  rfl

/-! ## Parser (claim C10) -/

theorem trim_None_not_paren : startsWithChars "(".toList "None".toList = false := by decide

/-- C10: for any input text with a valid revision assignment and a
`down_revision` assignment whose right-hand side starts with `(` but
contains no quoted string literal (such as `down_revision = ()`), parsing
succeeds and produces `down_revision = None` with `is_merge = false` —
the migration becomes an explicit root — rather than an empty tuple or a
failure. -/
theorem C10_empty_tuple_down_revision (filename content : String)
    (r : String) (hrev : extractRevision content = some r)
    (d : String) (hdown : extractDown content = some d)
    (hparen : startsWithChars "(".toList (pyStrip d).toList = true)
    (hnoq : findQuoted (pyStrip d) = []) :
    ∃ m, parse_migration_file filename content = some m ∧
      m.down_revision = DownRev.null ∧ m.is_merge = false := by
  have hne : ¬ (pyStrip d = "None") := by
    intro h
    rw [h] at hparen
    exact absurd hparen (by decide)
  have hpd : parseDown (some d) = DownRev.null := by
    simp only [parseDown]
    rw [if_neg hne, if_pos hparen, hnoq]
  have hparse : parse_migration_file filename content =
      some { revision := r
             down_revision := DownRev.null
             message :=
               match extractDocstring content with
               | some doc => (pyLines (pyStrip doc)).headD (pyStrip doc)
               | none => stemOf filename
             filename := filename
             create_date :=
               match extractCreateDate content with
               | some dd => pyStrip dd
               | none => ""
             is_merge := false } := by
    simp only [parse_migration_file, hrev, hdown, hpd, downIsMergeTuple]
  exact ⟨_, hparse, rfl, rfl⟩

theorem C10_empty_tuple_down_revision_witness :
    ∃ m, parse_migration_file "x.py" figEmptyTuple = some m ∧
      m.down_revision = DownRev.null ∧ m.is_merge = false :=
  C10_empty_tuple_down_revision "x.py" figEmptyTuple "abc" (by decide)
    "()" (by decide) (by decide) (by decide)

/-! ## Search (claim C4) -/

/-- C4: `find_nodes` returns the empty list when the trimmed, lowercased
query is empty; and when some revision of the collection equals the
normalized query case-insensitively (and is the only such revision, as in
the claim's "that revision"), the result is exactly that one revision —
even when other revisions' ids or messages contain the query as a
substring. -/
theorem C4_find_nodes_exact (mig : Collection) (q : String) :
    ((pyStrip (pyLower q) = "") → find_nodes mig q = []) ∧
    (∀ rev, keyMem mig rev = true → pyLower rev = pyStrip (pyLower q) →
      pyStrip (pyLower q) ≠ "" →
      (∀ e ∈ mig, pyLower (Prod.fst e) = pyStrip (pyLower q) → Prod.fst e = rev) →
      find_nodes mig q = [rev]) := by
  constructor
  · intro h
    simp only [find_nodes]
    rw [if_pos h]
  · intro rev hkey hlow hne huniq
    simp only [find_nodes]
    rw [if_neg hne]
    cases hf : mig.find? (fun e => pyLower e.1 == pyStrip (pyLower q)) with
    | none =>
      exfalso
      obtain ⟨mrev, hmrev⟩ := (entryHas_true_iff mig rev).mp hkey
      have hmem : (rev, mrev) ∈ mig := entryFind?_mem hmrev
      have := List.find?_eq_none.mp hf _ hmem
      simp only [beq_iff_eq] at this
      exact this hlow
    | some e =>
      have hpe := List.find?_some hf
      have hmem : e ∈ mig := List.mem_of_find?_eq_some hf
      have he : e.1 = rev := huniq e hmem (by simpa using hpe)
      show [e.1] = [rev]
      rw [he]

theorem C4_find_nodes_exact_witness :
    find_nodes figSearch "  ABC123 " = ["abc123"] ∧
    find_nodes figSearch "   " = [] := by
  constructor
  · exact (C4_find_nodes_exact figSearch "  ABC123 ").2 "abc123" (by decide)
      (by decide) (by decide) (by decide)
  · exact (C4_find_nodes_exact figSearch "   ").1 (by decide)

/-! ## Memo-map and max-fold lemmas (used for claims C2 and C5) -/

theorem lget_lset_self (lv : Levels) (k : String) (v : Int) :
    lget (lset lv k v) k = some v := by
  unfold lget lset
  exact entrySet_find_self lv k v

theorem lget_lset_other {j k : String} (lv : Levels) (v : Int) (h : j ≠ k) :
    lget (lset lv k v) j = lget lv j := by
  unfold lget lset
  exact entrySet_find_other lv v h

theorem levelsExtends_refl (lv : Levels) : LevelsExtends lv lv :=
  fun _ _ h => h

theorem levelsExtends_trans {lv1 lv2 lv3 : Levels}
    (h1 : LevelsExtends lv1 lv2) (h2 : LevelsExtends lv2 lv3) :
    LevelsExtends lv1 lv3 :=
  fun k v h => h2 k v (h1 k v h)

theorem levelsExtends_lset_fresh {lv : Levels} {k : String}
    (h : lmem lv k = false) (v : Int) : LevelsExtends lv (lset lv k v) := by
  intro j w hj
  have hjk : j ≠ k := by
    intro hh
    rw [hh] at hj
    have hnone : lget lv k = none := (entryHas_false_iff lv k).mp h
    rw [hnone] at hj
    cases hj
  rw [lget_lset_other lv v hjk]
  exact hj

theorem lmem_of_lget {lv : Levels} {k : String} {v : Int}
    (h : lget lv k = some v) : lmem lv k = true :=
  (entryHas_true_iff lv k).mpr ⟨v, h⟩

theorem forall2_lget_extends {lv lv' : Levels} {l : List String}
    {vals : List Int} (hext : LevelsExtends lv lv')
    (h : List.Forall₂ (fun p w => lget lv p = some w) l vals) :
    List.Forall₂ (fun p w => lget lv' p = some w) l vals :=
  h.imp (fun a b hab => hext a b hab)

theorem forall2_mem_left {lv : Levels} {l : List String} {vals : List Int}
    (h : List.Forall₂ (fun p w => lget lv p = some w) l vals) :
    ∀ p ∈ l, ∃ w, w ∈ vals ∧ lget lv p = some w := by
  induction h with
  | nil => simp
  | cons hr hrest ih =>
    intro p hp
    rcases List.mem_cons.mp hp with hp | hp
    · subst hp
      exact ⟨_, by simp, hr⟩
    · obtain ⟨w, hw1, hw2⟩ := ih p hp
      exact ⟨w, List.mem_cons_of_mem _ hw1, hw2⟩

theorem forall2_mem_right {lv : Levels} {l : List String} {vals : List Int}
    (h : List.Forall₂ (fun p w => lget lv p = some w) l vals) :
    ∀ w ∈ vals, ∃ p, lget lv p = some w := by
  induction h with
  | nil => simp
  | cons hr hrest ih =>
    intro w hw
    rcases List.mem_cons.mp hw with hw | hw
    · subst hw
      exact ⟨_, hr⟩
    · exact ih w hw

theorem forall2_map_lgetD {lv : Levels} {l : List String} {vals : List Int}
    (h : List.Forall₂ (fun p w => lget lv p = some w) l vals) :
    l.map (fun p => lgetD lv p 0) = vals := by
  induction h with
  | nil => rfl
  | cons hr hrest ih =>
    simp only [List.map_cons, ih, List.cons.injEq, and_true]
    unfold lgetD
    rw [hr]
    rfl

theorem foldl_max_base_le (l : List Int) (b : Int) : b ≤ l.foldl max b := by
  induction l generalizing b with
  | nil => exact le_refl b
  | cons x l ih =>
    simp only [List.foldl_cons]
    exact le_trans (le_max_left b x) (ih (max b x))

theorem foldl_max_le_self {x : Int} {l : List Int} (hx : x ∈ l) (b : Int) :
    x ≤ l.foldl max b := by
  induction l generalizing b with
  | nil => simp at hx
  | cons y l ih =>
    simp only [List.foldl_cons]
    rcases List.mem_cons.mp hx with h | h
    · subst h
      exact le_trans (le_max_right b x) (foldl_max_base_le l (max b x))
    · exact ih h (max b y)

theorem foldl_max_mem_or (l : List Int) (b : Int) :
    l.foldl max b ∈ l ∨ l.foldl max b = b := by
  induction l generalizing b with
  | nil => exact Or.inr rfl
  | cons y l ih =>
    simp only [List.foldl_cons]
    rcases ih (max b y) with h | h
    · exact Or.inl (List.mem_cons_of_mem _ h)
    · rcases max_choice b y with hm | hm
      · exact Or.inr (h.trans hm)
      · exact Or.inl (by rw [h, hm]; exact List.mem_cons_self y l)

theorem goodLevels_nil (mig : Collection) (pm : AdjMap) :
    GoodLevels mig pm [] := by
  intro r v h
  rw [show lget [] r = none from rfl] at h
  cases h

theorem goodLevels_value_nonneg {mig : Collection} {pm : AdjMap}
    {lv : Levels} (hgood : GoodLevels mig pm lv) {r : String} {v : Int}
    (h : lget lv r = some v) : 0 ≤ v := by
  rcases hgood r v h with ⟨-, rfl⟩ | ⟨-, vals, -, rfl⟩
  · exact le_refl 0
  · have := foldl_max_base_le vals (-1)
    omega

/-! ## Level-computation termination (claim C5)

The recursion of `get_level` only descends after pushing a fresh
collection key onto the in-progress stack, so the number of collection
keys not on the stack strictly decreases; the fuel `compute_levels`
supplies therefore never runs out, on cyclic input included. -/

theorem length_filter_mono {p q : String → Bool} (l : List String)
    (h : ∀ x, p x = true → q x = true) :
    (l.filter p).length ≤ (l.filter q).length := by
  induction l with
  | nil => simp
  | cons a l ih =>
    by_cases hp : p a = true
    · rw [List.filter_cons, if_pos hp, List.filter_cons, if_pos (h a hp)]
      simpa using ih
    · rw [List.filter_cons, if_neg hp]
      by_cases hq : q a = true
      · rw [List.filter_cons, if_pos hq]
        exact le_trans ih (by simp)
      · rw [List.filter_cons, if_neg hq]
        exact ih

theorem filter_uncontained_cons_lt (keys : List String) (rev : String)
    (stack : List String) (hmem : rev ∈ keys) (hs : rev ∉ stack) :
    (keys.filter (fun k => !((rev :: stack).contains k))).length
      < (keys.filter (fun k => !(stack.contains k))).length := by
  induction keys with
  | nil => simp at hmem
  | cons a keys ih =>
    have hmono : ∀ x, (!((rev :: stack).contains x)) = true →
        (!(stack.contains x)) = true := by
      intro x hx
      simp only [Bool.not_eq_true', List.contains_cons, Bool.or_eq_false_iff] at hx
      rw [hx.2]
      rfl
    by_cases har : a = rev
    · have h1 : ((rev :: stack).contains a) = true := by
        simp [har, List.contains_cons]
      have h2 : (stack.contains a) = false := by
        rw [har]
        simpa using hs
      have hle := length_filter_mono keys hmono
      simp only [List.filter_cons, h1, h2, Bool.not_true, Bool.not_false]
      simp only [show ((false : Bool) = true) = False by simp,
        show ((true : Bool) = true) = True by simp, if_false, if_true,
        List.length_cons]
      omega
    · have hsame : ((rev :: stack).contains a) = (stack.contains a) := by
        simp [List.contains_cons, har]
      have hmem' : rev ∈ keys := by
        rcases List.mem_cons.mp hmem with h | h
        · exact absurd h.symm har
        · exact h
      have hlt := ih hmem'
      simp only [List.filter_cons, hsame]
      by_cases hc : (stack.contains a) = true
      · simp only [hc, Bool.not_true]
        simp only [show ((false : Bool) = true) = False by simp, if_false]
        exact hlt
      · simp only [Bool.of_not_eq_true hc, Bool.not_false]
        simp only [show ((true : Bool) = true) = True by simp, if_true,
          List.length_cons]
        omega

theorem countFree_cons_lt (mig : Collection) (rev : String)
    (stack : List String) (hk : keyMem mig rev = true) (hs : rev ∉ stack) :
    countFree mig (rev :: stack) < countFree mig stack := by
  unfold countFree
  exact filter_uncontained_cons_lt (mig.map Prod.fst) rev stack
    ((entryHas_key_mem mig rev).mp hk) hs

theorem lmem_lset (lv : Levels) (k : String) (v : Int) (j : String) :
    lmem (lset lv k v) j = (lmem lv j || j == k) := by
  unfold lmem lset
  exact entryHas_entrySet lv k v j

theorem level_total (mig : Collection) (pm : AdjMap) (fuel : Nat) :
    (∀ rev stack levels, keyMem mig rev = true → countFree mig stack < fuel →
      ∃ v lv', get_level mig pm fuel rev stack levels = some (v, lv') ∧
        (∀ k, lmem levels k = true → lmem lv' k = true) ∧
        (rev ∉ stack → lmem lv' rev = true)) ∧
    (∀ ps acc stack levels, countFree mig stack < fuel →
      ∃ m lv', level_fold mig pm fuel stack ps acc levels = some (m, lv') ∧
        (∀ k, lmem levels k = true → lmem lv' k = true)) := by
  induction fuel with
  | zero =>
    constructor
    · intro rev stack levels _ hf
      omega
    · intro ps acc stack levels hf
      omega
  | succ f ih =>
    have hG : ∀ rev stack levels, keyMem mig rev = true →
        countFree mig stack < f + 1 →
        ∃ v lv', get_level mig pm (f + 1) rev stack levels = some (v, lv') ∧
          (∀ k, lmem levels k = true → lmem lv' k = true) ∧
          (rev ∉ stack → lmem lv' rev = true) := by
      intro rev stack levels hk hf
      by_cases hst : rev ∈ stack
      · refine ⟨lgetD levels rev 0, levels, ?_, fun k h => h, fun h => absurd hst h⟩
        simp [get_level, hst]
      · by_cases hlm : lmem levels rev = true
        · refine ⟨lgetD levels rev 0, levels, ?_, fun k h => h, fun _ => hlm⟩
          simp [get_level, hst, hlm]
        · by_cases hemp : (aget pm rev).isEmpty = true
          · refine ⟨0, lset levels rev 0, ?_, ?_, ?_⟩
            · simp [get_level, hst, hlm, hemp]
            · intro k h
              rw [lmem_lset]
              simp [h]
            · intro _
              rw [lmem_lset]
              simp
          · have hlt := countFree_cons_lt mig rev stack hk hst
            have hf' : countFree mig (rev :: stack) < f := by omega
            obtain ⟨m, lv1, hfold, hmono⟩ :=
              ih.2 (aget pm rev) (-1) (rev :: stack) levels hf'
            refine ⟨m + 1, lset lv1 rev (m + 1), ?_, ?_, ?_⟩
            · unfold level_fold at hfold
              simp only [get_level, if_neg hst, hlm, hemp, Bool.false_eq_true,
                if_false, hfold]
            · intro k h
              rw [lmem_lset]
              simp [hmono k h]
            · intro _
              rw [lmem_lset]
              simp
    refine ⟨hG, ?_⟩
    intro ps
    induction ps with
    | nil =>
      intro acc stack levels hf
      exact ⟨acc, levels, rfl, fun k h => h⟩
    | cons p ps ihp =>
      intro acc stack levels hf
      by_cases hkp : keyMem mig p = true
      · obtain ⟨v, lv1, hget, hmono1, -⟩ := hG p stack levels hkp hf
        obtain ⟨m, lv2, hfold, hmono2⟩ := ihp (max acc v) stack lv1 hf
        refine ⟨m, lv2, ?_, fun k h => hmono2 k (hmono1 k h)⟩
        unfold level_fold at hfold ⊢
        simp only [List.foldlM, if_pos hkp, hget, Option.bind_eq_bind,
          Option.bind_some]
        exact hfold
      · obtain ⟨m, lv2, hfold, hmono⟩ := ihp acc stack levels hf
        refine ⟨m, lv2, ?_, hmono⟩
        unfold level_fold at hfold ⊢
        simp only [List.foldlM, if_neg hkp, Option.bind_eq_bind,
          Option.bind_some]
        exact hfold

theorem compute_levels_fold_total (mig : Collection) (pm : AdjMap)
    (l : List (String × Migration)) (hl : ∀ e ∈ l, keyMem mig e.1 = true) :
    ∀ lv0, ∃ lv',
      l.foldlM (fun lv e =>
        (get_level mig pm (levelFuel mig) e.1 [] lv).map Prod.snd) lv0 = some lv' ∧
      (∀ k, lmem lv0 k = true → lmem lv' k = true) ∧
      (∀ e ∈ l, lmem lv' e.1 = true) := by
  induction l with
  | nil =>
    intro lv0
    exact ⟨lv0, rfl, fun k h => h, by simp⟩
  | cons e l ih =>
    intro lv0
    have hfuel : countFree mig [] < levelFuel mig := by
      unfold countFree levelFuel
      simp only [List.contains_nil, Bool.not_false, List.filter_true]
      simp [List.length_map]
    obtain ⟨v, lv1, hget, hmono1, hin⟩ :=
      (level_total mig pm (levelFuel mig)).1 e.1 [] lv0
        (hl e (List.mem_cons_self e l)) hfuel
    obtain ⟨lv', hfold, hmono2, hall⟩ :=
      ih (fun e' he' => hl e' (List.mem_cons_of_mem _ he')) lv1
    refine ⟨lv', ?_, fun k h => hmono2 k (hmono1 k h), ?_⟩
    · simp only [List.foldlM, hget, Option.map_some, Option.bind_eq_bind,
        Option.bind_some]
      exact hfold
    · intro e' he'
      rcases List.mem_cons.mp he' with he' | he'
      · rw [he']
        exact hmono2 e.1 (hin (by simp))
      · exact hall e' he'

theorem compute_levels_total (mig : Collection) (pm : AdjMap) :
    ∃ lv, compute_levels mig pm = some lv ∧
      ∀ r, keyMem mig r = true → lmem lv r = true := by
  unfold compute_levels
  have hl : ∀ e ∈ mig, keyMem mig e.1 = true := by
    intro e he
    exact (entryHas_key_mem mig e.1).mpr (List.mem_map_of_mem Prod.fst he)
  obtain ⟨lv', hfold, -, hall⟩ := compute_levels_fold_total mig pm mig hl
    ((find_roots mig pm).foldl (fun lv r => lset lv r 0) [])
  refine ⟨lv', hfold, ?_⟩
  intro r hr
  obtain ⟨mr, hmr⟩ := (entryHas_true_iff mig r).mp hr
  exact hall (r, mr) (entryFind?_mem hmr)

/-- C5: for every finite collection and parents map — cyclic declared
dependencies included — the level computation finishes within its fuel
and assigns every revision of the collection a level; and when the
recursion revisits a revision already on the in-progress stack, it
returns that revision's best-known level so far (`levels.get(rev, 0)`)
with the memo unchanged, instead of recursing further. -/
theorem C5_level_computation_total (mig : Collection) (pm : AdjMap) :
    (∃ lv, compute_levels mig pm = some lv ∧
      ∀ r, keyMem mig r = true → lmem lv r = true) ∧
    (∀ fuel rev stack levels, rev ∈ stack →
      get_level mig pm (fuel + 1) rev stack levels
        = some (lgetD levels rev 0, levels)) := by
  refine ⟨compute_levels_total mig pm, ?_⟩
  intro fuel rev stack levels h
  simp [get_level, h]

theorem C5_level_computation_total_witness :
    (∃ lv, compute_levels figCycle figCycleParents = some lv ∧
      lmem lv "a" = true ∧ lmem lv "b" = true) ∧
    get_level figCycle figCycleParents 1 "a" ["a"] []
      = some (lgetD [] "a" 0, []) := by
  have h := C5_level_computation_total figCycle figCycleParents
  constructor
  · obtain ⟨lv, h1, h2⟩ := h.1
    exact ⟨lv, h1, h2 "a" (by decide), h2 "b" (by decide)⟩
  · exact h.2 0 "a" ["a"] [] (by simp)

/-! ## Level-computation correctness on acyclic input (claim C2)

Under a ranking certificate for acyclicity the cycle guard never fires,
memo entries are written once and never overwritten, and every write
satisfies the longest-path recurrence. -/

theorem level_good (mig : Collection) (pm : AdjMap) (rank : String → Nat)
    (hrank : RankOk mig pm rank) (fuel : Nat) :
    (∀ rev stack levels, keyMem mig rev = true →
      (∀ s ∈ stack, rank rev < rank s) →
      countFree mig stack < fuel →
      GoodLevels mig pm levels →
      ∃ v lv', get_level mig pm fuel rev stack levels = some (v, lv') ∧
        LevelsExtends levels lv' ∧ GoodLevels mig pm lv' ∧
        lget lv' rev = some v ∧
        (∀ k, lmem lv' k = true → lmem levels k = false → rank k ≤ rank rev)) ∧
    (∀ ps acc stack levels (B : Nat),
      (∀ p ∈ ps, keyMem mig p = true → rank p < B) →
      (∀ s ∈ stack, B ≤ rank s) →
      countFree mig stack < fuel →
      GoodLevels mig pm levels →
      ∃ m lv', level_fold mig pm fuel stack ps acc levels = some (m, lv') ∧
        LevelsExtends levels lv' ∧ GoodLevels mig pm lv' ∧
        acc ≤ m ∧
        (∃ vals : List Int,
          List.Forall₂ (fun p w => lget lv' p = some w)
            (ps.filter (fun p => keyMem mig p)) vals ∧
          m = vals.foldl max acc) ∧
        (∀ k, lmem lv' k = true → lmem levels k = false → rank k < B)) := by
  induction fuel with
  | zero =>
    constructor
    · intro rev stack levels _ _ hf _
      omega
    · intro ps acc stack levels B _ _ hf _
      omega
  | succ f ih =>
    have hG : ∀ rev stack levels, keyMem mig rev = true →
        (∀ s ∈ stack, rank rev < rank s) →
        countFree mig stack < f + 1 →
        GoodLevels mig pm levels →
        ∃ v lv', get_level mig pm (f + 1) rev stack levels = some (v, lv') ∧
          LevelsExtends levels lv' ∧ GoodLevels mig pm lv' ∧
          lget lv' rev = some v ∧
          (∀ k, lmem lv' k = true → lmem levels k = false → rank k ≤ rank rev) := by
      intro rev stack levels hk hstack hf hgood
      by_cases hst : rev ∈ stack
      · exact absurd (hstack rev hst) (lt_irrefl _)
      · by_cases hlm : lmem levels rev = true
        · obtain ⟨v, hv⟩ := (entryHas_true_iff levels rev).mp hlm
          have hv' : lget levels rev = some v := hv
          refine ⟨lgetD levels rev 0, levels, ?_, levelsExtends_refl levels,
            hgood, ?_, ?_⟩
          · simp [get_level, hst, hlm]
          · unfold lgetD
            rw [hv']
            rfl
          · intro k h1 h2
            rw [h1] at h2
            exact Bool.noConfusion h2
        · have hfresh : lmem levels rev = false := by simpa using hlm
          by_cases hemp : (aget pm rev).isEmpty = true
          · have hnil : aget pm rev = [] := by
              cases haget : aget pm rev with
              | nil => rfl
              | cons a l =>
                rw [haget] at hemp
                exact absurd hemp (by simp)
            refine ⟨0, lset levels rev 0, ?_,
              levelsExtends_lset_fresh hfresh 0, ?_,
              lget_lset_self levels rev 0, ?_⟩
            · simp [get_level, hst, hlm, hemp]
            · intro r v hr
              by_cases hrr : r = rev
              · subst hrr
                rw [lget_lset_self] at hr
                injection hr with hr
                exact Or.inl ⟨hnil, hr.symm⟩
              · rw [lget_lset_other _ _ hrr] at hr
                rcases hgood r v hr with ⟨h1, h2⟩ | ⟨h1, vals, hvals, hsum⟩
                · exact Or.inl ⟨h1, h2⟩
                · exact Or.inr ⟨h1, vals,
                    forall2_lget_extends (levelsExtends_lset_fresh hfresh 0) hvals,
                    hsum⟩
            · intro k h1 h2
              simp only [lmem_lset, Bool.or_eq_true, beq_iff_eq] at h1
              rcases h1 with h1 | h1
              · rw [h1] at h2
                exact Bool.noConfusion h2
              · subst h1
                exact le_refl _
          · have hemp' : aget pm rev ≠ [] := by
              intro hh
              rw [hh] at hemp
              exact hemp rfl
            obtain ⟨plist, hplist⟩ : ∃ l, entryFind? pm rev = some l := by
              cases hfind : entryFind? pm rev with
              | none =>
                exfalso
                apply hemp'
                unfold aget
                rw [hfind]
                rfl
              | some l => exact ⟨l, rfl⟩
            have hplist2 : aget pm rev = plist := by
              unfold aget
              rw [hplist]
              rfl
            have hmempm : (rev, plist) ∈ pm := entryFind?_mem hplist
            have hB : ∀ p ∈ aget pm rev, keyMem mig p = true → rank p < rank rev := by
              intro p hp hkp
              rw [hplist2] at hp
              exact hrank (rev, plist) hmempm p hp hkp
            have hstack' : ∀ s ∈ rev :: stack, rank rev ≤ rank s := by
              intro s hs
              rcases List.mem_cons.mp hs with hs | hs
              · rw [hs]
              · exact le_of_lt (hstack s hs)
            have hlt := countFree_cons_lt mig rev stack hk hst
            have hf' : countFree mig (rev :: stack) < f := by omega
            obtain ⟨m, lv1, hfold, hext1, hgood1, -, ⟨vals, hvals, hm⟩, hnew1⟩ :=
              ih.2 (aget pm rev) (-1) (rev :: stack) levels (rank rev)
                hB hstack' hf' hgood
            have hrevlv1 : lmem lv1 rev = false := by
              cases hcase : lmem lv1 rev with
              | false => rfl
              | true =>
                exfalso
                have := hnew1 rev hcase hfresh
                omega
            have hext2 : LevelsExtends lv1 (lset lv1 rev (m + 1)) :=
              levelsExtends_lset_fresh hrevlv1 (m + 1)
            refine ⟨m + 1, lset lv1 rev (m + 1), ?_,
              levelsExtends_trans hext1 hext2, ?_,
              lget_lset_self lv1 rev (m + 1), ?_⟩
            · unfold level_fold at hfold
              simp only [get_level, if_neg hst, hlm, hemp, Bool.false_eq_true,
                if_false, hfold]
            · intro r v hr
              by_cases hrr : r = rev
              · subst hrr
                rw [lget_lset_self] at hr
                injection hr with hr
                refine Or.inr ⟨hemp', vals, forall2_lget_extends hext2 hvals, ?_⟩
                rw [← hr, hm]
              · rw [lget_lset_other _ _ hrr] at hr
                rcases hgood1 r v hr with ⟨h1, h2⟩ | ⟨h1, vals2, hvals2, hsum⟩
                · exact Or.inl ⟨h1, h2⟩
                · exact Or.inr ⟨h1, vals2, forall2_lget_extends hext2 hvals2, hsum⟩
            · intro k h1 h2
              simp only [lmem_lset, Bool.or_eq_true, beq_iff_eq] at h1
              rcases h1 with h1 | h1
              · have := hnew1 k h1 h2
                omega
              · subst h1
                exact le_refl _
    refine ⟨hG, ?_⟩
    intro ps
    induction ps with
    | nil =>
      intro acc stack levels B hB hstack hf hgood
      refine ⟨acc, levels, rfl, levelsExtends_refl levels, hgood, le_refl acc,
        ⟨[], List.Forall₂.nil, rfl⟩, ?_⟩
      intro k h1 h2
      rw [h1] at h2
      exact Bool.noConfusion h2
    | cons p ps ihp =>
      intro acc stack levels B hB hstack hf hgood
      by_cases hkp : keyMem mig p = true
      · have hstackp : ∀ s ∈ stack, rank p < rank s := by
          intro s hs
          exact lt_of_lt_of_le (hB p (List.mem_cons_self p ps) hkp) (hstack s hs)
        obtain ⟨v, lv1, hget, hext1, hgood1, hlv1p, hnew1⟩ :=
          hG p stack levels hkp hstackp hf hgood
        obtain ⟨m, lv2, hfold, hext2, hgood2, hacc2, ⟨vals2, hvals2, hm2⟩, hnew2⟩ :=
          ihp (max acc v) stack lv1 B
            (fun p' hp' => hB p' (List.mem_cons_of_mem _ hp')) hstack hf hgood1
        refine ⟨m, lv2, ?_, levelsExtends_trans hext1 hext2, hgood2, ?_, ?_, ?_⟩
        · unfold level_fold at hfold ⊢
          simp only [List.foldlM, if_pos hkp, hget, Option.bind_eq_bind,
            Option.bind_some]
          exact hfold
        · exact le_trans (le_max_left acc v) hacc2
        · refine ⟨v :: vals2, ?_, ?_⟩
          · rw [List.filter_cons, if_pos hkp]
            exact List.Forall₂.cons (hext2 p v hlv1p) hvals2
          · simp only [List.foldl_cons]
            exact hm2
        · intro k h1 h2
          by_cases hk1 : lmem lv1 k = true
          · have hle := hnew1 k hk1 h2
            have hpB := hB p (List.mem_cons_self p ps) hkp
            omega
          · exact hnew2 k h1 (by simpa using hk1)
      · obtain ⟨m, lv2, hfold, hext, hgood2, hacc, ⟨vals2, hvals2, hm2⟩, hnew⟩ :=
          ihp acc stack levels B
            (fun p' hp' => hB p' (List.mem_cons_of_mem _ hp')) hstack hf hgood
        refine ⟨m, lv2, ?_, hext, hgood2, hacc, ?_, hnew⟩
        · unfold level_fold at hfold ⊢
          simp only [List.foldlM, if_neg hkp, Option.bind_eq_bind,
            Option.bind_some]
          exact hfold
        · refine ⟨vals2, ?_, hm2⟩
          rw [List.filter_cons, if_neg hkp]
          exact hvals2

theorem levelsExtends_lset_zero {mig : Collection} {pm : AdjMap} {lv : Levels}
    (hgood : GoodLevels mig pm lv) {r : String} (hr : aget pm r = []) :
    LevelsExtends lv (lset lv r 0) := by
  intro k v hk
  by_cases hkr : k = r
  · subst hkr
    rcases hgood k v hk with ⟨-, rfl⟩ | ⟨h1, -⟩
    · rw [lget_lset_self]
    · exact absurd hr h1
  · rw [lget_lset_other _ _ hkr]
    exact hk

theorem goodLevels_lset_zero {mig : Collection} {pm : AdjMap} {lv : Levels}
    (hgood : GoodLevels mig pm lv) {r : String} (hr : aget pm r = []) :
    GoodLevels mig pm (lset lv r 0) := by
  intro j v hj
  by_cases hjr : j = r
  · subst hjr
    rw [lget_lset_self] at hj
    injection hj with hj
    exact Or.inl ⟨hr, hj.symm⟩
  · rw [lget_lset_other _ _ hjr] at hj
    rcases hgood j v hj with ⟨h1, h2⟩ | ⟨h1, vals, hvals, hsum⟩
    · exact Or.inl ⟨h1, h2⟩
    · exact Or.inr ⟨h1, vals,
        forall2_lget_extends (levelsExtends_lset_zero hgood hr) hvals, hsum⟩

theorem seeds_good (mig : Collection) (pm : AdjMap) (l : List String)
    (hl : ∀ r ∈ l, aget pm r = []) :
    ∀ lv, GoodLevels mig pm lv →
      GoodLevels mig pm (l.foldl (fun a r => lset a r 0) lv) := by
  induction l with
  | nil =>
    intro lv h
    exact h
  | cons r l ih =>
    intro lv h
    simp only [List.foldl_cons]
    exact ih (fun r' hr' => hl r' (List.mem_cons_of_mem _ hr')) _
      (goodLevels_lset_zero h (hl r (List.mem_cons_self r l)))

theorem find_roots_no_parents (mig : Collection) (pm : AdjMap) :
    ∀ r ∈ find_roots mig pm, aget pm r = [] := by
  intro r hr
  unfold find_roots at hr
  have hemp := (List.mem_filter.mp hr).2
  cases haget : aget pm r with
  | nil => rfl
  | cons a l =>
    rw [haget] at hemp
    exact absurd hemp (by simp)

theorem compute_good_fold (mig : Collection) (pm : AdjMap)
    (rank : String → Nat) (hrank : RankOk mig pm rank)
    (l : List (String × Migration)) (hl : ∀ e ∈ l, keyMem mig e.1 = true) :
    ∀ lv0, GoodLevels mig pm lv0 →
      ∃ lv', l.foldlM (fun lv e =>
          (get_level mig pm (levelFuel mig) e.1 [] lv).map Prod.snd) lv0
            = some lv' ∧
        LevelsExtends lv0 lv' ∧ GoodLevels mig pm lv' ∧
        (∀ e ∈ l, ∃ v, lget lv' e.1 = some v) := by
  induction l with
  | nil =>
    intro lv0 h
    exact ⟨lv0, rfl, levelsExtends_refl _, h, by simp⟩
  | cons e l ih =>
    intro lv0 hgood
    have hfuel : countFree mig [] < levelFuel mig := by
      unfold countFree levelFuel
      simp only [List.contains_nil, Bool.not_false, List.filter_true]
      simp [List.length_map]
    obtain ⟨v, lv1, hget, hext1, hgood1, hlv1, -⟩ :=
      (level_good mig pm rank hrank (levelFuel mig)).1 e.1 [] lv0
        (hl e (List.mem_cons_self e l)) (by simp) hfuel hgood
    obtain ⟨lv', hfold, hext2, hgood', hall⟩ :=
      ih (fun e' he' => hl e' (List.mem_cons_of_mem _ he')) lv1 hgood1
    refine ⟨lv', ?_, levelsExtends_trans hext1 hext2, hgood', ?_⟩
    · simp only [List.foldlM, hget, Option.map_some, Option.bind_eq_bind,
        Option.bind_some]
      exact hfold
    · intro e' he'
      rcases List.mem_cons.mp he' with he' | he'
      · rw [he']
        exact ⟨v, hext2 e.1 v hlv1⟩
      · exact hall e' he'

/-- C2: when the parents map is acyclic — certified by a rank function
that every recorded edge strictly decreases — the level computation of
`_calculate_positions` gives every revision of the collection a level:
`0` when its parents entry is empty or absent, and otherwise one more
than the maximum of the levels of its parents present in the collection;
in particular every revision's level is strictly greater than the level
of each of its in-collection parents. -/
theorem C2_longest_path_levels (mig : Collection) (pm : AdjMap)
    (rank : String → Nat) (hrank : RankOk mig pm rank) :
    ∃ lv, compute_levels mig pm = some lv ∧
      ∀ r, keyMem mig r = true →
        ∃ v, lget lv r = some v ∧
          (aget pm r = [] → v = 0) ∧
          (∀ p, p ∈ aget pm r → keyMem mig p = true →
            ∃ w, lget lv p = some w ∧ w < v) ∧
          ((aget pm r).filter (fun p => keyMem mig p) ≠ [] →
            ∃ w, w ∈ ((aget pm r).filter (fun p => keyMem mig p)).map
                (fun p => lgetD lv p 0) ∧
              (∀ u ∈ ((aget pm r).filter (fun p => keyMem mig p)).map
                  (fun p => lgetD lv p 0), u ≤ w) ∧
              v = 1 + w) := by
  unfold compute_levels
  have hseeds : GoodLevels mig pm
      ((find_roots mig pm).foldl (fun lv r => lset lv r 0) []) :=
    seeds_good mig pm (find_roots mig pm) (find_roots_no_parents mig pm) []
      (goodLevels_nil mig pm)
  have hl : ∀ e ∈ mig, keyMem mig e.1 = true := by
    intro e he
    exact (entryHas_key_mem mig e.1).mpr (List.mem_map_of_mem Prod.fst he)
  obtain ⟨lv', hfold, -, hgood', hall⟩ :=
    compute_good_fold mig pm rank hrank mig hl _ hseeds
  refine ⟨lv', hfold, ?_⟩
  intro r hr
  obtain ⟨mr, hmr⟩ := (entryHas_true_iff mig r).mp hr
  obtain ⟨v, hv⟩ := hall (r, mr) (entryFind?_mem hmr)
  refine ⟨v, hv, ?_, ?_, ?_⟩
  · intro hnil
    rcases hgood' r v hv with ⟨-, h⟩ | ⟨h1, -⟩
    · exact h
    · exact absurd hnil h1
  · intro p hp hkp
    rcases hgood' r v hv with ⟨h1, -⟩ | ⟨-, vals, hvals, hsum⟩
    · rw [h1] at hp
      cases hp
    · have hpf : p ∈ (aget pm r).filter (fun p => keyMem mig p) :=
        List.mem_filter.mpr ⟨hp, by simpa using hkp⟩
      obtain ⟨w, hwv, hwl⟩ := forall2_mem_left hvals p hpf
      refine ⟨w, hwl, ?_⟩
      have := foldl_max_le_self hwv (-1)
      omega
  · intro hne
    rcases hgood' r v hv with ⟨h1, -⟩ | ⟨-, vals, hvals, hsum⟩
    · exfalso
      apply hne
      rw [h1]
      rfl
    · have hmap : ((aget pm r).filter (fun p => keyMem mig p)).map
          (fun p => lgetD lv' p 0) = vals := forall2_map_lgetD hvals
      refine ⟨vals.foldl max (-1), ?_, ?_, ?_⟩
      · rw [hmap]
        rcases foldl_max_mem_or vals (-1) with h | h
        · exact h
        · exfalso
          have hvne : vals ≠ [] := by
            intro h0
            subst h0
            have hlen := hvals.length_eq
            simp only [List.length_nil] at hlen
            exact hne (List.length_eq_zero.mp hlen)
          obtain ⟨w, vals', rfl⟩ := List.exists_cons_of_ne_nil hvne
          obtain ⟨p, hp⟩ := forall2_mem_right hvals w (List.mem_cons_self _ _)
          have hnn := goodLevels_value_nonneg hgood' hp
          have hle := foldl_max_le_self (List.mem_cons_self w vals') (-1)
          omega
      · intro u hu
        rw [hmap] at hu
        exact foldl_max_le_self hu (-1)
      · omega

theorem C2_longest_path_levels_witness :
    ∃ lv, compute_levels figChain (build_graph_structure figChain).2 = some lv ∧
      ∃ v, lget lv "rev2" = some v ∧
        ∀ p, p ∈ aget (build_graph_structure figChain).2 "rev2" →
          keyMem figChain p = true →
          ∃ w, lget lv p = some w ∧ w < v := by
  obtain ⟨lv, h1, h2⟩ :=
    C2_longest_path_levels figChain (build_graph_structure figChain).2
      figChainRank (by unfold RankOk; decide)
  obtain ⟨v, hv, -, hstrict, -⟩ := h2 "rev2" (by decide)
  exact ⟨lv, h1, v, hv, hstrict⟩

/-! ## Zoom (claim C6)

The claim states the new scale is `s * f` clamped to `[0.3, 3.0]`.  The
source instead keeps the old scale whenever `s * f` leaves the interval
(`if 0.3 <= new_scale <= 3.0` guards the whole update), so at the
boundary the scale is not clamped but left unchanged. -/

/-- C6 counterexample: at scale `2.9`, a scroll-up (factor `1.1`) yields
`2.9 * 1.1 = 3.19 > 3.0`; the claim's clamping would give `3.0`, but
`_on_scroll` keeps the scale at `2.9`. -/
theorem C6_zoom_counterexample :
    on_scroll_scale (29/10) (scroll_factor true)
        ≠ min 3 (max (3/10) ((29/10) * scroll_factor true)) ∧
      on_scroll_scale (29/10) (scroll_factor true) = 29/10 := by
  constructor
  · norm_num [on_scroll_scale, scroll_factor]
  · norm_num [on_scroll_scale, scroll_factor]

/-- C6 (amended): for a prior scale in `[0.3, 3.0]` and a scroll step
(factor `1.1` up, `0.9` down), the new scale is `s * f` when that stays
within `[0.3, 3.0]` and remains `s` otherwise (no clamping to the
boundary); in particular the scale never leaves `[0.3, 3.0]`. -/
theorem C6_zoom_scale_update (s : ℚ) (h1 : 3/10 ≤ s) (h2 : s ≤ 3) (up : Bool) :
    (3/10 ≤ on_scroll_scale s (scroll_factor up)
      ∧ on_scroll_scale s (scroll_factor up) ≤ 3) ∧
    (3/10 ≤ s * scroll_factor up → s * scroll_factor up ≤ 3 →
      on_scroll_scale s (scroll_factor up) = s * scroll_factor up) ∧
    (¬ (3/10 ≤ s * scroll_factor up ∧ s * scroll_factor up ≤ 3) →
      on_scroll_scale s (scroll_factor up) = s) := by
  unfold on_scroll_scale
  by_cases h : 3/10 ≤ s * scroll_factor up ∧ s * scroll_factor up ≤ 3
  · rw [if_pos h]
    exact ⟨⟨h.1, h.2⟩, fun _ _ => rfl, fun hc => absurd h hc⟩
  · rw [if_neg h]
    exact ⟨⟨h1, h2⟩, fun ha hb => absurd ⟨ha, hb⟩ h, fun _ => rfl⟩

theorem C6_zoom_scale_update_witness :
    (3/10 ≤ on_scroll_scale 1 (scroll_factor true)
      ∧ on_scroll_scale 1 (scroll_factor true) ≤ 3) ∧
    on_scroll_scale 1 (scroll_factor true) = 1 * scroll_factor true := by
  have h := C6_zoom_scale_update 1 (by norm_num) (by norm_num) true
  exact ⟨h.1, h.2.1 (by norm_num [scroll_factor]) (by norm_num [scroll_factor])⟩

/-! ## Hit testing (claim C7)

The claim states hit testing returns the nearest node among those whose
scaled center is within the scaled radius of the point.  The source scans
`self.positions` in insertion order and returns the first node within the
radius, which need not be the nearest when circles overlap the point. -/

/-- C7 counterexample: in `figPositions` both nodes contain the probe
point `(100, 50)` (distances 30 and 5 against radius 32), `b` is strictly
nearer, yet the scan returns `a` because it comes first. -/
theorem C7_hit_test_counterexample :
    get_node_at_position figPositions 1 100 50 = some "a" ∧
    pget figPositions "b" = some { x := 105, y := 50, level := 0, column := 0 } ∧
    hitDistSq { x := 105, y := 50, level := 0, column := 0 } 1 100 50
      ≤ (NODE_RADIUS : ℚ) * 1 * ((NODE_RADIUS : ℚ) * 1) ∧
    pget figPositions "a" = some { x := 130, y := 50, level := 0, column := 0 } ∧
    hitDistSq { x := 105, y := 50, level := 0, column := 0 } 1 100 50
      < hitDistSq { x := 130, y := 50, level := 0, column := 0 } 1 100 50 := by
  refine ⟨?_, by rfl, ?_, by rfl, ?_⟩
  · norm_num [get_node_at_position, figPositions, NODE_RADIUS]
  · norm_num [hitDistSq, NODE_RADIUS]
  · norm_num [hitDistSq]

/-- C7 (amended): hit testing returns `none` exactly when no node's
scaled center is within the scaled radius of the point, and otherwise
returns the first node in the positions dict's iteration order whose
scaled center is within the scaled radius — not necessarily the nearest
one. -/
theorem C7_hit_test_first_match (positions : List (String × NodePosition))
    (scale x y : ℚ) :
    (get_node_at_position positions scale x y = none ↔
      ∀ e ∈ positions,
        ¬ (hitDistSq e.2 scale x y ≤ (NODE_RADIUS : ℚ) * scale * ((NODE_RADIUS : ℚ) * scale))) ∧
    (∀ rev, get_node_at_position positions scale x y = some rev →
      ∃ pre pos post, positions = pre ++ (rev, pos) :: post ∧
        hitDistSq pos scale x y ≤ (NODE_RADIUS : ℚ) * scale * ((NODE_RADIUS : ℚ) * scale) ∧
        ∀ e ∈ pre,
          ¬ (hitDistSq e.2 scale x y ≤ (NODE_RADIUS : ℚ) * scale * ((NODE_RADIUS : ℚ) * scale))) := by
  induction positions with
  | nil =>
    constructor
    · simp [get_node_at_position]
    · intro rev h
      simp [get_node_at_position] at h
  | cons e rest ih =>
    have hcond :
        get_node_at_position (e :: rest) scale x y =
          if hitDistSq e.2 scale x y ≤ (NODE_RADIUS : ℚ) * scale * ((NODE_RADIUS : ℚ) * scale)
          then some e.1 else get_node_at_position rest scale x y := by
      simp only [get_node_at_position, hitDistSq]
    by_cases hc : hitDistSq e.2 scale x y ≤ (NODE_RADIUS : ℚ) * scale * ((NODE_RADIUS : ℚ) * scale)
    · rw [hcond, if_pos hc]
      constructor
      · constructor
        · intro h
          cases h
        · intro h
          exact absurd hc (h e (List.mem_cons_self e rest))
      · intro rev h
        obtain rfl : e.1 = rev := by
          injection h
        exact ⟨[], e.2, rest, by simp, hc, by simp⟩
    · rw [hcond, if_neg hc]
      constructor
      · rw [ih.1]
        constructor
        · intro h e' he'
          rcases List.mem_cons.mp he' with he' | he'
          · rw [he']
            exact hc
          · exact h e' he'
        · intro h e' he'
          exact h e' (List.mem_cons_of_mem _ he')
      · intro rev h
        obtain ⟨pre, pos, post, heq, hin, hpre⟩ := ih.2 rev h
        refine ⟨e :: pre, pos, post, by rw [heq]; rfl, hin, ?_⟩
        intro e' he'
        rcases List.mem_cons.mp he' with he' | he'
        · rw [he']
          exact hc
        · exact hpre e' he'

theorem C7_hit_test_first_match_witness :
    ∃ pre pos post, figPositions = pre ++ ("a", pos) :: post ∧
      hitDistSq pos 1 100 50 ≤ (NODE_RADIUS : ℚ) * 1 * ((NODE_RADIUS : ℚ) * 1) ∧
      ∀ e ∈ pre, ¬ (hitDistSq e.2 1 100 50 ≤ (NODE_RADIUS : ℚ) * 1 * ((NODE_RADIUS : ℚ) * 1)) :=
  (C7_hit_test_first_match figPositions 1 100 50).2 "a"
    (by norm_num [get_node_at_position, figPositions, NODE_RADIUS])

/-! ## Date filter and selection (claim C8)

The claim states applying a date filter resets the selection.  Neither
`_apply_date_filter` nor `set_data` (nor the `_calculate_positions`,
`_draw_graph`, `reset_view` calls it makes) ever writes
`selected_node`, so the selection is preserved, not reset. -/

/-- C8 counterexample: with `rev2` selected, filtering `figChain` from
`2024-01-02` produces a non-empty filtered collection (two of the three
revisions) and goes through `set_data`, yet `rev2` is still selected
afterwards — the claim says no node would be. -/
theorem C8_filter_counterexample :
    (apply_date_filter figState figChain "2024-01-02" "").selected_node
        = some "rev2" ∧
      (apply_date_filter figState figChain "2024-01-02" "").migrations
        = [("rev2", mkMigration "rev2" (DownRev.single "rev1") "2024-01-02"),
           ("rev3", mkMigration "rev3" (DownRev.single "rev2") "2024-01-03")] := by
  constructor
  · rfl
  · rfl

/-- C8 (amended): applying the date filter never changes the selection:
every branch of `_apply_date_filter` (including the `set_data` path taken
for a non-empty filtered collection) leaves `selected_node` exactly as it
was. -/
theorem C8_filter_preserves_selection (st : CanvasState)
    (all_migrations : Collection) (date_from_raw date_to_raw : String) :
    (apply_date_filter st all_migrations date_from_raw date_to_raw).selected_node
      = st.selected_node := by
  by_cases h1 : pyStrip date_from_raw = "" ∧ pyStrip date_to_raw = ""
  · simp [apply_date_filter, h1]
  · by_cases h2 : (all_migrations.filter
        (fun e => dateFilterKeep (pyStrip date_from_raw) (pyStrip date_to_raw) e.2)).isEmpty
    · simp [apply_date_filter, h1, h2]
    · simp [apply_date_filter, h1, h2, set_data]

/-! ## Layout ordering (claim C3)

String-comparison and stable-sort lemmas for the per-level ordering. -/

theorem charsLt_asymm : ∀ a b : List Char, charsLt a b = true → charsLt b a = false := by
  intro a
  induction a with
  | nil =>
    intro b _
    cases b with
    | nil => rfl
    | cons y ys => rfl
  | cons x xs ih =>
    intro b hab
    cases b with
    | nil => cases hab
    | cons y ys =>
      simp only [charsLt] at hab ⊢
      by_cases hxy : x < y
      · rw [if_neg (fun h => absurd hxy (lt_asymm h)), if_pos hxy]
      · rw [if_neg hxy] at hab
        by_cases hyx : y < x
        · rw [if_pos hyx] at hab
          cases hab
        · rw [if_neg hyx] at hab
          rw [if_neg hyx, if_neg hxy]
          exact ih ys hab

theorem strLeB_of_not_strLeB {a b : String} (h : strLeB a b = false) :
    strLeB b a = true := by
  unfold strLeB strLtB at h ⊢
  simp only [Bool.not_eq_false'] at h
  simp only [Bool.not_eq_true']
  exact charsLt_asymm _ _ h

theorem charsEq_of_not_lt : ∀ a b : List Char,
    charsLt a b = false → charsLt b a = false → a = b := by
  intro a
  induction a with
  | nil =>
    intro b hab _
    cases b with
    | nil => rfl
    | cons y ys => cases hab
  | cons x xs ih =>
    intro b hab hba
    cases b with
    | nil => cases hba
    | cons y ys =>
      simp only [charsLt] at hab hba
      by_cases hxy : x < y
      · rw [if_pos hxy] at hab
        cases hab
      · by_cases hyx : y < x
        · rw [if_pos hyx] at hba
          cases hba
        · rw [if_neg hxy, if_neg hyx] at hab
          rw [if_neg hyx, if_neg hxy] at hba
          have hxyeq : x = y := le_antisymm (le_of_not_lt hyx) (le_of_not_lt hxy)
          rw [hxyeq, ih ys hab hba]

theorem charsLt_trans : ∀ a b c : List Char,
    charsLt a b = true → charsLt b c = true → charsLt a c = true := by
  intro a
  induction a with
  | nil =>
    intro b c hab hbc
    cases b with
    | nil => cases hab
    | cons y ys =>
      cases c with
      | nil => cases hbc
      | cons z zs => rfl
  | cons x xs ih =>
    intro b c hab hbc
    cases b with
    | nil => cases hab
    | cons y ys =>
      cases c with
      | nil => cases hbc
      | cons z zs =>
        simp only [charsLt] at hab hbc ⊢
        by_cases hxy : x < y
        · by_cases hyz : y < z
          · rw [if_pos (lt_trans hxy hyz)]
          · by_cases hzy : z < y
            · rw [if_neg hyz, if_pos hzy] at hbc
              cases hbc
            · have : y = z := le_antisymm (le_of_not_lt hzy) (le_of_not_lt hyz)
              rw [if_pos (this ▸ hxy)]
        · by_cases hyx : y < x
          · rw [if_neg hxy, if_pos hyx] at hab
            cases hab
          · have hxyeq : x = y := le_antisymm (le_of_not_lt hyx) (le_of_not_lt hxy)
            rw [if_neg hxy, if_neg hyx] at hab
            by_cases hyz : y < z
            · rw [if_pos (hxyeq ▸ hyz)]
            · by_cases hzy : z < y
              · rw [if_neg hyz, if_pos hzy] at hbc
                cases hbc
              · rw [if_neg hyz, if_neg hzy] at hbc
                rw [if_neg (hxyeq ▸ hyz), if_neg (hxyeq ▸ hzy)]
                exact ih ys zs hab hbc

theorem strLeB_trans {a b c : String} (hab : strLeB a b = true)
    (hbc : strLeB b c = true) : strLeB a c = true := by
  unfold strLeB strLtB at hab hbc ⊢
  simp only [Bool.not_eq_true'] at hab hbc ⊢
  by_cases hca : charsLt c.toList a.toList = true
  · exfalso
    by_cases hbc2 : charsLt b.toList c.toList = true
    · have := charsLt_trans _ _ _ hbc2 hca
      rw [this] at hab
      cases hab
    · have hbceq : b.toList = c.toList :=
        charsEq_of_not_lt _ _ (by simpa using hbc2) hbc
      rw [← hbceq] at hca
      rw [hca] at hab
      cases hab
  · simpa using hca

/-- The stable-sort order on date keys. -/
def dateLe (mig : Collection) (a b : String) : Prop :=
  strLeB (dateKey mig a) (dateKey mig b) = true

theorem sortInsert_perm (mig : Collection) (x : String) (l : List String) :
    List.Perm (sortInsert mig x l) (x :: l) := by
  induction l with
  | nil => exact List.Perm.refl _
  | cons y ys ih =>
    simp only [sortInsert]
    by_cases h : strLeB (dateKey mig y) (dateKey mig x) = true
    · rw [if_pos h]
      exact (ih.cons y).trans (List.Perm.swap x y ys)
    · rw [if_neg h]

theorem sortByDate_perm_aux (mig : Collection) (l : List String) :
    ∀ acc, List.Perm (l.foldl (fun a x => sortInsert mig x a) acc) (l ++ acc) := by
  induction l with
  | nil =>
    intro acc
    exact List.Perm.refl _
  | cons x l ih =>
    intro acc
    simp only [List.foldl_cons]
    refine (ih (sortInsert mig x acc)).trans ?_
    refine (List.Perm.append_left l (sortInsert_perm mig x acc)).trans ?_
    exact List.perm_middle

theorem sortByDate_perm (mig : Collection) (l : List String) :
    List.Perm (sortByDate mig l) l := by
  have := sortByDate_perm_aux mig l []
  simpa [sortByDate] using this

theorem sortInsert_pairwise (mig : Collection) (x : String) (l : List String)
    (h : List.Pairwise (dateLe mig) l) :
    List.Pairwise (dateLe mig) (sortInsert mig x l) := by
  induction l with
  | nil => exact List.pairwise_singleton _ x
  | cons y ys ih =>
    rcases List.pairwise_cons.mp h with ⟨hy, hys⟩
    simp only [sortInsert]
    by_cases hc : strLeB (dateKey mig y) (dateKey mig x) = true
    · rw [if_pos hc]
      refine List.pairwise_cons.mpr ⟨?_, ih hys⟩
      intro z hz
      have hz' := (sortInsert_perm mig x ys).mem_iff.mp hz
      rcases List.mem_cons.mp hz' with hz' | hz'
      · rw [hz']
        exact hc
      · exact hy z hz'
    · rw [if_neg hc]
      refine List.pairwise_cons.mpr ⟨?_, h⟩
      intro z hz
      have hxy : dateLe mig x y := strLeB_of_not_strLeB (by simpa using hc)
      rcases List.mem_cons.mp hz with hz | hz
      · rw [hz]
        exact hxy
      · exact strLeB_trans hxy (hy z hz)

theorem charsLt_irrefl : ∀ a : List Char, charsLt a a = false := by
  intro a
  induction a with
  | nil => rfl
  | cons x xs ih =>
    simp only [charsLt, lt_irrefl x, if_false, if_neg (lt_irrefl x)]
    exact ih

theorem strLeB_refl (a : String) : strLeB a a = true := by
  unfold strLeB strLtB
  rw [charsLt_irrefl]
  rfl

theorem sortByDate_pairwise (mig : Collection) (l : List String) :
    List.Pairwise (dateLe mig) (sortByDate mig l) := by
  suffices h : ∀ acc, List.Pairwise (dateLe mig) acc →
      List.Pairwise (dateLe mig) (l.foldl (fun a x => sortInsert mig x a) acc) from
    h [] List.Pairwise.nil
  induction l with
  | nil =>
    intro acc h
    exact h
  | cons x l ih =>
    intro acc h
    exact ih _ (sortInsert_pairwise mig x acc h)

theorem sublist_sortInsert (mig : Collection) (x : String) (l : List String) :
    l.Sublist (sortInsert mig x l) := by
  induction l with
  | nil => exact List.nil_sublist _
  | cons y ys ih =>
    simp only [sortInsert]
    by_cases h : strLeB (dateKey mig y) (dateKey mig x) = true
    · rw [if_pos h]
      exact ih.cons₂ y
    · rw [if_neg h]
      exact List.sublist_cons_self x (y :: ys)

theorem pair_sublist_sortInsert (mig : Collection) {a x : String}
    {l : List String} (ha : a ∈ l) (hsorted : List.Pairwise (dateLe mig) l)
    (hle : dateLe mig a x) : [a, x].Sublist (sortInsert mig x l) := by
  induction l with
  | nil => cases ha
  | cons y ys ih =>
    rcases List.pairwise_cons.mp hsorted with ⟨hy, hys⟩
    simp only [sortInsert]
    by_cases h : strLeB (dateKey mig y) (dateKey mig x) = true
    · rw [if_pos h]
      rcases List.mem_cons.mp ha with ha | ha
      · subst ha
        exact (List.singleton_sublist.mpr
          ((sortInsert_perm mig x ys).mem_iff.mpr (by simp))).cons₂ a
      · exact (ih ha hys).cons y
    · exfalso
      rcases List.mem_cons.mp ha with ha | ha
      · subst ha
        exact absurd hle h
      · exact absurd (strLeB_trans (hy a ha) hle) h

theorem stable_sortByDate_aux (mig : Collection) {a b : String}
    (hab : dateKey mig a = dateKey mig b) (l : List String) :
    ∀ acc, List.Pairwise (dateLe mig) acc →
      ([a, b].Sublist acc ∨ (a ∈ acc ∧ b ∈ l) ∨ [a, b].Sublist l) →
      [a, b].Sublist (l.foldl (fun ac x => sortInsert mig x ac) acc) := by
  induction l with
  | nil =>
    intro acc _ hcase
    rcases hcase with h | ⟨-, hb⟩ | h
    · exact h
    · cases hb
    · simp at h
  | cons x l ih =>
    intro acc hsorted hcase
    simp only [List.foldl_cons]
    apply ih _ (sortInsert_pairwise mig x acc hsorted)
    rcases hcase with h | ⟨haacc, hb⟩ | h
    · exact Or.inl (h.trans (sublist_sortInsert mig x acc))
    · rcases List.mem_cons.mp hb with hb | hb
      · subst hb
        refine Or.inl (pair_sublist_sortInsert mig haacc hsorted ?_)
        unfold dateLe
        rw [hab]
        exact strLeB_refl _
      · exact Or.inr (Or.inl
          ⟨(sortInsert_perm mig x acc).mem_iff.mpr (List.mem_cons_of_mem _ haacc),
            hb⟩)
    · cases h with
      | cons _ h => exact Or.inr (Or.inr h)
      | cons₂ _ h =>
        refine Or.inr (Or.inl ⟨?_, List.singleton_sublist.mp h⟩)
        exact (sortInsert_perm mig a acc).mem_iff.mpr (by simp)

theorem stable_sortByDate (mig : Collection) {a b : String}
    (hab : dateKey mig a = dateKey mig b) {l : List String}
    (h : [a, b].Sublist l) : [a, b].Sublist (sortByDate mig l) :=
  stable_sortByDate_aux mig hab l [] List.Pairwise.nil (Or.inr (Or.inr h))

/-! Key uniqueness of the level memo: every write goes through `lset`,
which never duplicates a key, so the memo `compute_levels` produces has
pairwise-distinct keys. -/

theorem entrySet_keys {α β : Type} [BEq α] [LawfulBEq α]
    (m : List (α × β)) (k : α) (v : β) :
    ((entrySet m k v).map Prod.fst) =
      if entryHas m k = true then m.map Prod.fst else m.map Prod.fst ++ [k] := by
  unfold entrySet
  by_cases h : entryHas m k = true
  · rw [if_pos h, if_pos h, List.map_map]
    congr 1
    funext e
    by_cases he : e.1 == k
    · simp [he]
    · simp [he]
  · rw [if_neg h, if_neg h, List.map_append]
    rfl

theorem entrySet_keys_nodup {α β : Type} [BEq α] [LawfulBEq α]
    (m : List (α × β)) (k : α) (v : β) (h : (m.map Prod.fst).Nodup) :
    ((entrySet m k v).map Prod.fst).Nodup := by
  rw [entrySet_keys]
  by_cases hh : entryHas m k = true
  · rw [if_pos hh]
    exact h
  · rw [if_neg hh]
    refine List.Nodup.append h (List.nodup_singleton k) ?_
    intro x hx hxk
    rw [List.mem_singleton.mp hxk] at hx
    exact absurd ((entryHas_key_mem m k).mpr hx) hh

theorem lset_keys_nodup (lv : Levels) (k : String) (v : Int)
    (h : (lv.map Prod.fst).Nodup) : ((lset lv k v).map Prod.fst).Nodup :=
  entrySet_keys_nodup lv k v h

theorem level_keys_nodup (mig : Collection) (pm : AdjMap) (fuel : Nat) :
    (∀ rev stack levels v lv',
      get_level mig pm fuel rev stack levels = some (v, lv') →
      (levels.map Prod.fst).Nodup → (lv'.map Prod.fst).Nodup) ∧
    (∀ ps stack acc levels m lv',
      level_fold mig pm fuel stack ps acc levels = some (m, lv') →
      (levels.map Prod.fst).Nodup → (lv'.map Prod.fst).Nodup) := by
  induction fuel with
  | zero =>
    constructor
    · intro rev stack levels v lv' hres
      cases hres
    · intro ps
      induction ps with
      | nil =>
        intro stack acc levels m lv' hres hnd
        simp only [level_fold, List.foldlM] at hres
        injection hres with hres
        injection hres with h1 h2
        rw [← h2]
        exact hnd
      | cons p ps ihp =>
        intro stack acc levels m lv' hres hnd
        unfold level_fold at hres
        simp only [List.foldlM] at hres
        by_cases hkp : keyMem mig p = true
        · rw [if_pos hkp] at hres
          cases hres
        · rw [if_neg hkp] at hres
          simp only [Option.bind_eq_bind, Option.bind_some] at hres
          exact ihp stack acc levels m lv' hres hnd
  | succ f ih =>
    have hG : ∀ rev stack levels v lv',
        get_level mig pm (f + 1) rev stack levels = some (v, lv') →
        (levels.map Prod.fst).Nodup → (lv'.map Prod.fst).Nodup := by
      intro rev stack levels v lv' hres hnd
      by_cases hst : rev ∈ stack
      · simp only [get_level, if_pos hst, Option.some.injEq, Prod.mk.injEq] at hres
        rw [← hres.2]
        exact hnd
      · by_cases hlm : lmem levels rev = true
        · simp only [get_level, if_neg hst, hlm, if_true, Option.some.injEq,
            Prod.mk.injEq] at hres
          rw [← hres.2]
          exact hnd
        · by_cases hemp : (aget pm rev).isEmpty = true
          · simp only [get_level, if_neg hst, hlm, hemp, Bool.false_eq_true,
              if_false, if_true, Option.some.injEq, Prod.mk.injEq] at hres
            rw [← hres.2]
            exact lset_keys_nodup levels rev 0 hnd
          · simp only [get_level, if_neg hst, hlm, hemp, Bool.false_eq_true,
              if_false] at hres
            cases hfold : (aget pm rev).foldlM
                (fun (st : Int × Levels) p =>
                  if keyMem mig p then
                    match get_level mig pm f p (rev :: stack) st.2 with
                    | none => none
                    | some r => some (max st.1 r.1, r.2)
                  else some st)
                ((-1 : Int), levels) with
            | none =>
              rw [hfold] at hres
              cases hres
            | some r =>
              obtain ⟨maxp, lv1⟩ := r
              rw [hfold] at hres
              simp only [Option.some.injEq, Prod.mk.injEq] at hres
              have hnd1 : (lv1.map Prod.fst).Nodup :=
                ih.2 (aget pm rev) (rev :: stack) (-1) levels maxp lv1 hfold hnd
              rw [← hres.2]
              exact lset_keys_nodup lv1 rev (maxp + 1) hnd1
    refine ⟨hG, ?_⟩
    intro ps
    induction ps with
    | nil =>
      intro stack acc levels m lv' hres hnd
      simp only [level_fold, List.foldlM] at hres
      injection hres with hres
      injection hres with h1 h2
      rw [← h2]
      exact hnd
    | cons p ps ihp =>
      intro stack acc levels m lv' hres hnd
      unfold level_fold at hres ihp
      simp only [List.foldlM] at hres
      by_cases hkp : keyMem mig p = true
      · rw [if_pos hkp] at hres
        cases hget : get_level mig pm (f + 1) p stack levels with
        | none =>
          rw [hget] at hres
          cases hres
        | some r =>
          obtain ⟨pl, lv1⟩ := r
          rw [hget] at hres
          simp only [Option.bind_eq_bind, Option.bind_some] at hres
          have hnd1 := hG p stack levels pl lv1 hget hnd
          exact ihp stack (max acc pl) lv1 m lv' hres hnd1
      · rw [if_neg hkp] at hres
        simp only [Option.bind_eq_bind, Option.bind_some] at hres
        exact ihp stack acc levels m lv' hres hnd

theorem seeds_keys_nodup (l : List String) :
    ∀ lv : Levels, (lv.map Prod.fst).Nodup →
      ((l.foldl (fun a r => lset a r 0) lv).map Prod.fst).Nodup := by
  induction l with
  | nil =>
    intro lv h
    exact h
  | cons r l ih =>
    intro lv h
    simp only [List.foldl_cons]
    exact ih _ (lset_keys_nodup lv r 0 h)

theorem levels_fold_keys_nodup (mig : Collection) (pm : AdjMap)
    (l : List (String × Migration)) :
    ∀ lv0 : Levels, (lv0.map Prod.fst).Nodup →
      ∀ lv, l.foldlM (fun lv e =>
          (get_level mig pm (levelFuel mig) e.1 [] lv).map Prod.snd) lv0
            = some lv →
      (lv.map Prod.fst).Nodup := by
  induction l with
  | nil =>
    intro lv0 hnd lv h
    injection h with h
    rw [← h]
    exact hnd
  | cons e l ih =>
    intro lv0 hnd lv h
    simp only [List.foldlM] at h
    cases hget : get_level mig pm (levelFuel mig) e.1 [] lv0 with
    | none =>
      rw [hget] at h
      cases h
    | some r =>
      obtain ⟨v, lv1⟩ := r
      rw [hget] at h
      simp only [Option.map_some, Option.bind_eq_bind, Option.bind_some] at h
      exact ih lv1
        ((level_keys_nodup mig pm (levelFuel mig)).1 e.1 [] lv0 v lv1 hget hnd)
        lv h

theorem compute_levels_keys_nodup (mig : Collection) (pm : AdjMap)
    {lv : Levels} (h : compute_levels mig pm = some lv) :
    (lv.map Prod.fst).Nodup := by
  unfold compute_levels at h
  exact levels_fold_keys_nodup mig pm mig _
    (seeds_keys_nodup (find_roots mig pm) [] (by simp)) lv h

/-! Characterization of the level grouping and the coordinate
assignment. -/

theorem entries_unique {α β : Type} [BEq α] [LawfulBEq α]
    {l : List (α × β)} (hnd : (l.map Prod.fst).Nodup)
    {c : α} {v1 v2 : β} (h1 : (c, v1) ∈ l) (h2 : (c, v2) ∈ l) : v1 = v2 := by
  induction l with
  | nil => cases h1
  | cons e l ih =>
    simp only [List.map_cons, List.nodup_cons] at hnd
    rcases List.mem_cons.mp h1 with h1 | h1 <;>
      rcases List.mem_cons.mp h2 with h2 | h2
    · have h12 : ((c, v1) : α × β) = (c, v2) := h1.trans h2.symm
      exact ((Prod.mk.injEq _ _ _ _).mp h12).2
    · exfalso
      apply hnd.1
      have hm : c ∈ l.map Prod.fst := List.mem_map_of_mem Prod.fst h2
      rwa [show e.1 = c from by rw [← h1]]
    · exfalso
      apply hnd.1
      have hm : c ∈ l.map Prod.fst := List.mem_map_of_mem Prod.fst h1
      rwa [show e.1 = c from by rw [← h2]]
    · exact ih hnd.2 h1 h2

theorem entryFind?_of_mem_nodup {α β : Type} [BEq α] [LawfulBEq α]
    {m : List (α × β)} (hnd : (m.map Prod.fst).Nodup) {k : α} {v : β}
    (h : (k, v) ∈ m) : entryFind? m k = some v := by
  induction m with
  | nil => cases h
  | cons e m ih =>
    rw [entryFind?_cons]
    rcases List.mem_cons.mp h with h | h
    · rw [← h]
      simp
    · simp only [List.map_cons, List.nodup_cons] at hnd
      have hk : e.1 ≠ k := by
        intro he
        exact hnd.1 (he ▸ List.mem_map_of_mem Prod.fst h)
      rw [if_neg (by simpa using hk)]
      exact ih hnd.2 h

theorem gget_gappend_self (g : List (Int × List String)) (k : Int) (v : String) :
    gget (gappend g k v) k = gget g k ++ [v] := by
  unfold gget gappend
  rw [entryAppendOne_find_self]
  rfl

theorem gget_gappend_other {j k : Int} (g : List (Int × List String))
    (v : String) (h : j ≠ k) : gget (gappend g k v) j = gget g j := by
  unfold gget gappend
  rw [entryAppendOne_find_other _ _ h]

theorem buildGroups_gget_aux (lv : Levels) (L : Int) :
    ∀ g0, gget (lv.foldl (fun g e => gappend g e.2 e.1) g0) L
      = gget g0 L ++ (lv.filter (fun e => e.2 == L)).map Prod.fst := by
  induction lv with
  | nil =>
    intro g0
    simp
  | cons e l ih =>
    intro g0
    simp only [List.foldl_cons, List.filter_cons]
    by_cases he : (e.2 == L) = true
    · have heL : e.2 = L := by simpa using he
      rw [ih, heL, gget_gappend_self]
      simp [he]
    · have heL : L ≠ e.2 := by
        intro hh
        exact he (by simp [hh])
      rw [ih, gget_gappend_other _ _ heL]
      simp [he]

theorem buildGroups_gget (lv : Levels) (L : Int) :
    gget (buildGroups lv) L = (lv.filter (fun e => e.2 == L)).map Prod.fst := by
  have := buildGroups_gget_aux lv L []
  unfold buildGroups
  rw [this]
  rfl

theorem entryAppendOne_keys {α γ : Type} [BEq α] [LawfulBEq α]
    (m : List (α × List γ)) (k : α) (v : γ) :
    ((entryAppendOne m k v).map Prod.fst) =
      if entryHas m k = true then m.map Prod.fst else m.map Prod.fst ++ [k] := by
  unfold entryAppendOne
  by_cases h : entryHas m k = true
  · rw [if_pos h, if_pos h, List.map_map]
    congr 1
    funext e
    by_cases he : e.1 == k
    · simp [he]
    · simp [he]
  · rw [if_neg h, if_neg h, List.map_append]
    rfl

theorem entryAppendOne_keys_nodup {α γ : Type} [BEq α] [LawfulBEq α]
    (m : List (α × List γ)) (k : α) (v : γ) (h : (m.map Prod.fst).Nodup) :
    ((entryAppendOne m k v).map Prod.fst).Nodup := by
  rw [entryAppendOne_keys]
  by_cases hh : entryHas m k = true
  · rw [if_pos hh]
    exact h
  · rw [if_neg hh]
    refine List.Nodup.append h (List.nodup_singleton k) ?_
    intro x hx hxk
    rw [List.mem_singleton.mp hxk] at hx
    exact absurd ((entryHas_key_mem m k).mpr hx) hh

theorem buildGroups_keys_nodup (lv : Levels) :
    ((buildGroups lv).map Prod.fst).Nodup := by
  unfold buildGroups
  suffices h : ∀ g0 : List (Int × List String), (g0.map Prod.fst).Nodup →
      ((lv.foldl (fun g e => gappend g e.2 e.1) g0).map Prod.fst).Nodup from
    h [] (by simp)
  induction lv with
  | nil =>
    intro g0 h
    exact h
  | cons e l ih =>
    intro g0 h
    simp only [List.foldl_cons]
    exact ih _ (entryAppendOne_keys_nodup g0 e.2 e.1 h)

theorem mem_buildGroups_group {lv : Levels} {L : Int} {gl : List String}
    (h : (L, gl) ∈ buildGroups lv) :
    gl = (lv.filter (fun e => e.2 == L)).map Prod.fst := by
  have h1 : entryFind? (buildGroups lv) L = some gl :=
    entryFind?_of_mem_nodup (buildGroups_keys_nodup lv) h
  have h2 : gget (buildGroups lv) L = gl := by
    unfold gget
    rw [h1]
    rfl
  rw [← h2, buildGroups_gget]

theorem pget_pset_self (ps : List (String × NodePosition)) (k : String)
    (v : NodePosition) : pget (pset ps k v) k = some v :=
  entrySet_find_self ps k v

theorem pget_pset_other {j k : String} (ps : List (String × NodePosition))
    (v : NodePosition) (h : j ≠ k) : pget (pset ps k v) j = pget ps j :=
  entrySet_find_other ps v h

theorem assign_enumFrom_not_mem (level : Int) (s : List String) {rev : String}
    (h : rev ∉ s) :
    ∀ (n : Nat) (ps : List (String × NodePosition)),
      pget ((List.enumFrom n s).foldl
        (fun acc ce => pset acc ce.2 (mkNodePos level ce.1)) ps) rev
        = pget ps rev := by
  induction s with
  | nil =>
    intro n ps
    rfl
  | cons x s ih =>
    intro n ps
    simp only [List.enumFrom, List.foldl_cons]
    have hx : rev ≠ x := fun hh => h (hh ▸ List.mem_cons_self x s)
    rw [ih (fun hh => h (List.mem_cons_of_mem x hh)) (n + 1),
      pget_pset_other _ _ hx]

theorem assign_enumFrom_mem (level : Int) (s : List String) (hnd : s.Nodup) :
    ∀ (i : Nat) (rev : String), s.get? i = some rev →
      ∀ (n : Nat) (ps : List (String × NodePosition)),
        pget ((List.enumFrom n s).foldl
          (fun acc ce => pset acc ce.2 (mkNodePos level ce.1)) ps) rev
          = some (mkNodePos level (n + i)) := by
  induction s with
  | nil =>
    intro i rev hget
    cases hget
  | cons x s ih =>
    intro i rev hget n ps
    rcases List.nodup_cons.mp hnd with ⟨hx, hnds⟩
    simp only [List.enumFrom, List.foldl_cons]
    cases i with
    | zero =>
      injection hget with hget
      subst hget
      rw [assign_enumFrom_not_mem level s hx (n + 1),
        pget_pset_self]
      rfl
    | succ j =>
      have hj : s.get? j = some rev := hget
      have hrev : rev ∈ s := by
        exact List.get?_mem hj
      rw [ih hnds j rev hj (n + 1)]
      have : n + 1 + j = n + (j + 1) := by omega
      rw [this]

theorem assignGroup_pget_not_mem (ps : List (String × NodePosition))
    (level : Int) (s : List String) {rev : String} (h : rev ∉ s) :
    pget (assignGroup ps level s) rev = pget ps rev := by
  unfold assignGroup List.enum
  exact assign_enumFrom_not_mem level s h 0 ps

theorem assignGroup_pget_mem (ps : List (String × NodePosition))
    (level : Int) {s : List String} (hnd : s.Nodup) {i : Nat} {rev : String}
    (hget : s.get? i = some rev) :
    pget (assignGroup ps level s) rev = some (mkNodePos level i) := by
  unfold assignGroup List.enum
  rw [assign_enumFrom_mem level s hnd i rev hget 0 ps]
  rw [Nat.zero_add]

theorem assignGroup_pget_some (ps : List (String × NodePosition))
    (level : Int) (s : List String) {rev : String} {pos : NodePosition}
    (h : pget (assignGroup ps level s) rev = some pos) :
    pget ps rev = some pos ∨ rev ∈ s := by
  by_cases hm : rev ∈ s
  · exact Or.inr hm
  · rw [assignGroup_pget_not_mem ps level s hm] at h
    exact Or.inl h

theorem groups_fold_props (mig : Collection) (rev : String) :
    ∀ (groups : List (Int × List String)) (ps0 : List (String × NodePosition)),
      (∀ e ∈ groups, e.2.Nodup) → (groups.map Prod.fst).Nodup →
      ((∀ e ∈ groups, rev ∉ e.2) →
        pget (groups.foldl
          (fun ps g => assignGroup ps g.1 (sortByDate mig g.2)) ps0) rev
          = pget ps0 rev) ∧
      (∀ pos, pget (groups.foldl
          (fun ps g => assignGroup ps g.1 (sortByDate mig g.2)) ps0) rev
            = some pos →
        pget ps0 rev = some pos ∨ ∃ e ∈ groups, rev ∈ e.2) ∧
      (∀ e ∈ groups, rev ∈ e.2 → (∀ e' ∈ groups, rev ∈ e'.2 → e' = e) →
        ∃ i, (sortByDate mig e.2).get? i = some rev ∧
          pget (groups.foldl
            (fun ps g => assignGroup ps g.1 (sortByDate mig g.2)) ps0) rev
            = some (mkNodePos e.1 i)) := by
  intro groups
  induction groups with
  | nil =>
    intro ps0 _ _
    refine ⟨fun _ => rfl, fun pos h => Or.inl h, ?_⟩
    intro e he
    cases he
  | cons g gs ih =>
    intro ps0 hgl hknd
    have hgl' : ∀ e ∈ gs, e.2.Nodup :=
      fun e he => hgl e (List.mem_cons_of_mem g he)
    have hknd' : (gs.map Prod.fst).Nodup := by
      simp only [List.map_cons, List.nodup_cons] at hknd
      exact hknd.2
    have hgnot : g ∉ gs := by
      intro hmem
      simp only [List.map_cons, List.nodup_cons] at hknd
      exact hknd.1 (List.mem_map_of_mem Prod.fst hmem)
    refine ⟨?_, ?_, ?_⟩
    · intro hnone
      simp only [List.foldl_cons]
      have hrevg : rev ∉ sortByDate mig g.2 := by
        intro hmem
        exact hnone g (List.mem_cons_self g gs)
          ((sortByDate_perm mig g.2).mem_iff.mp hmem)
      rw [(ih (assignGroup ps0 g.1 (sortByDate mig g.2)) hgl' hknd').1
        (fun e he => hnone e (List.mem_cons_of_mem g he))]
      exact assignGroup_pget_not_mem _ _ _ hrevg
    · intro pos h
      simp only [List.foldl_cons] at h
      rcases (ih (assignGroup ps0 g.1 (sortByDate mig g.2)) hgl' hknd').2.1 pos h
        with h1 | ⟨e, he, hrev⟩
      · rcases assignGroup_pget_some _ _ _ h1 with h2 | h2
        · exact Or.inl h2
        · exact Or.inr ⟨g, List.mem_cons_self g gs,
            (sortByDate_perm mig g.2).mem_iff.mp h2⟩
      · exact Or.inr ⟨e, List.mem_cons_of_mem g he, hrev⟩
    · intro e he hrev huniq
      simp only [List.foldl_cons]
      rcases List.mem_cons.mp he with he | he
      · subst he
        have hsnd : (sortByDate mig e.2).Nodup :=
          (sortByDate_perm mig e.2).nodup_iff.mpr (hgl e (List.mem_cons_self e gs))
        have hrevs : rev ∈ sortByDate mig e.2 :=
          (sortByDate_perm mig e.2).mem_iff.mpr hrev
        obtain ⟨i, hi⟩ := List.mem_iff_get?.mp hrevs
        refine ⟨i, hi, ?_⟩
        have hlater : ∀ e' ∈ gs, rev ∉ e'.2 := by
          intro e' he' hmem
          have := huniq e' (List.mem_cons_of_mem e he') hmem
          exact hgnot (this ▸ he')
        rw [(ih (assignGroup ps0 e.1 (sortByDate mig e.2)) hgl' hknd').1 hlater]
        exact assignGroup_pget_mem ps0 e.1 hsnd hi
      · have hrevg : rev ∉ sortByDate mig g.2 := by
          intro hmem
          have hrevg2 : rev ∈ g.2 := (sortByDate_perm mig g.2).mem_iff.mp hmem
          have := huniq g (List.mem_cons_self g gs) hrevg2
          exact hgnot (by rw [this]; exact he)
        obtain ⟨i, hi, hres⟩ :=
          (ih (assignGroup ps0 g.1 (sortByDate mig g.2)) hgl' hknd').2.2 e he hrev
            (fun e' he' hm => huniq e' (List.mem_cons_of_mem g he') hm)
        exact ⟨i, hi, hres⟩

theorem pair_sublist_get? {α : Type} {a b : α} :
    ∀ {l : List α}, [a, b].Sublist l →
      ∃ i j, i < j ∧ l.get? i = some a ∧ l.get? j = some b := by
  intro l h
  induction l with
  | nil => simp at h
  | cons x l ih =>
    cases h with
    | cons _ h =>
      obtain ⟨i, j, hij, ha, hb⟩ := ih h
      exact ⟨i + 1, j + 1, by omega, ha, hb⟩
    | cons₂ _ h =>
      obtain ⟨j, hj⟩ := List.mem_iff_get?.mp (List.singleton_sublist.mp h)
      exact ⟨0, j + 1, by omega, rfl, hj⟩

theorem nodup_get?_inj {α : Type} {l : List α} (hnd : l.Nodup) {a : α}
    {i j : Nat} (hi : l.get? i = some a) (hj : l.get? j = some a) : i = j := by
  obtain ⟨hil, hig⟩ := List.get?_eq_some.mp hi
  exact List.get?_inj hil hnd (hi.trans hj.symm)

theorem mem_level_group_iff (lv : Levels) (L : Int) (rev : String) :
    rev ∈ (lv.filter (fun e => e.2 == L)).map Prod.fst ↔ (rev, L) ∈ lv := by
  constructor
  · intro h
    obtain ⟨x, hx, hfst⟩ := List.mem_map.mp h
    rcases List.mem_filter.mp hx with ⟨hxlv, hxL⟩
    have hx2 : x.2 = L := by simpa using hxL
    have : x = (rev, L) := by
      cases x
      simp only at hfst hx2
      rw [hfst, hx2]
    rw [← this]
    exact hxlv
  · intro h
    refine List.mem_map.mpr ⟨(rev, L), List.mem_filter.mpr ⟨h, by simp⟩, rfl⟩

theorem calculate_positions_char (mig : Collection) (pm : AdjMap)
    {lv : Levels} (hlv : compute_levels mig pm = some lv)
    {ps : List (String × NodePosition)}
    (hps : calculate_positions mig pm = some ps)
    (hmig : mig.isEmpty = false) :
    ∀ rev pos, pget ps rev = some pos →
      ∃ i, (sortByDate mig
          ((lv.filter (fun e => e.2 == pos.level)).map Prod.fst)).get? i
            = some rev ∧
        pos = mkNodePos pos.level i ∧ (rev, pos.level) ∈ lv := by
  intro rev pos hpos
  have hknd := compute_levels_keys_nodup mig pm hlv
  unfold calculate_positions at hps
  rw [hmig] at hps
  simp only [Bool.false_eq_true, if_false, hlv] at hps
  injection hps with hps
  subst hps
  set groups := buildGroups lv with hgroups
  have hgknd : (groups.map Prod.fst).Nodup := buildGroups_keys_nodup lv
  have hgl : ∀ e ∈ groups, e.2.Nodup := by
    intro e he
    rw [mem_buildGroups_group he]
    exact List.Nodup.sublist ((List.filter_sublist lv).map Prod.fst) hknd
  have hmemiff : ∀ e ∈ groups, ∀ x, x ∈ e.2 ↔ (x, e.1) ∈ lv := by
    intro e he x
    rw [mem_buildGroups_group he]
    exact mem_level_group_iff lv e.1 x
  have hp := groups_fold_props mig rev groups [] hgl hgknd
  rcases hp.2.1 pos hpos with h | ⟨e, he, hrev⟩
  · cases h
  · have huniq : ∀ e' ∈ groups, rev ∈ e'.2 → e' = e := by
      intro e' he' hrev'
      have h1 : (rev, e.1) ∈ lv := (hmemiff e he rev).mp hrev
      have h2 : (rev, e'.1) ∈ lv := (hmemiff e' he' rev).mp hrev'
      have hkey : e'.1 = e.1 := by
        have := entries_unique hknd h2 h1
        exact this
      have hval : e'.2 = e.2 := by
        have hh1 : (e.1, e.2) ∈ groups := he
        have hh2 : (e.1, e'.2) ∈ groups := by
          rw [← hkey]
          exact he'
        exact entries_unique hgknd hh2 hh1
      cases e
      cases e'
      simp only at hkey hval
      rw [hkey, hval]
    obtain ⟨i, hi, hres⟩ := hp.2.2 e he hrev huniq
    rw [hpos] at hres
    injection hres with hres
    have hlevel : pos.level = e.1 := by
      rw [hres]
      rfl
    refine ⟨i, ?_, ?_, ?_⟩
    · rw [hlevel, ← mem_buildGroups_group he]
      exact hi
    · rw [hlevel]
      exact hres
    · rw [hlevel]
      exact (hmemiff e he rev).mp hrev

/-- C3 counterexample: in `figOrder` the collection iterates
`w, u, v, r`, so `u` precedes `v`, and all creation dates are equal
(empty); `u` and `v` both land on level 1, so the claim's tie-break by
collection iteration order would put `u` at column 0 and `v` at column 1.
The computed layout places `v` at column 0 and `u` at column 1 (levels
are recorded in the order `r, v, w, u` by the traversal), refuting the
claimed ordering; the coordinates also exhibit `x = 100 + 150·column`,
so the deviation is purely in the tie-break. -/
theorem C3_layout_order_counterexample :
    figOrder.map Prod.fst = ["w", "u", "v", "r"] ∧
    dateKey figOrder "u" = dateKey figOrder "v" ∧
    pget ((calculate_positions figOrder figOrderParents).getD []) "u"
      = some { x := 250, y := 150, level := 1, column := 1 } ∧
    pget ((calculate_positions figOrder figOrderParents).getD []) "v"
      = some { x := 100, y := 150, level := 1, column := 0 } := by
  decide

/-- C3 (amended): in the computed layout, every node of level `l` and
column `c` sits at `x = 100 + c·150`, `y = 50 + l·100`; within one level
the columns are ordered ascending by creation date (string comparison,
empty dates first); and ties are broken by the order in which the level
computation recorded the revisions' levels (the memo order), not by the
collection iteration order.  The layout is a pure function of the
collection and parents map, so identical input gives identical
positions. -/
theorem C3_layout_positions (mig : Collection) (pm : AdjMap)
    (lv : Levels) (ps : List (String × NodePosition))
    (hlv : compute_levels mig pm = some lv)
    (hps : calculate_positions mig pm = some ps)
    (hmig : mig.isEmpty = false) :
    (∀ rev pos, pget ps rev = some pos →
      pos.x = 100 + (pos.column : Int) * COLUMN_WIDTH ∧
      pos.y = 50 + pos.level * LEVEL_HEIGHT) ∧
    (∀ u pu v pv, pget ps u = some pu → pget ps v = some pv →
      pu.level = pv.level → pu.column < pv.column →
      strLeB (dateKey mig u) (dateKey mig v) = true) ∧
    (∀ u pu v pv, pget ps u = some pu → pget ps v = some pv →
      pu.level = pv.level → dateKey mig u = dateKey mig v →
      [(u, pu.level), (v, pv.level)].Sublist lv →
      pu.column < pv.column) := by
  have hchar := calculate_positions_char mig pm hlv hps hmig
  have hknd := compute_levels_keys_nodup mig pm hlv
  refine ⟨?_, ?_, ?_⟩
  · intro rev pos hpos
    obtain ⟨i, -, hmk, -⟩ := hchar rev pos hpos
    constructor
    · rw [hmk]
      rfl
    · rw [hmk]
      rfl
  · intro u pu v pv hu hv hlevel hcol
    obtain ⟨i, hiu, hmku, -⟩ := hchar u pu hu
    obtain ⟨j, hjv, hmkv, -⟩ := hchar v pv hv
    rw [hlevel] at hiu
    set s := sortByDate mig
      ((lv.filter (fun e => e.2 == pv.level)).map Prod.fst) with hs
    have hpw : List.Pairwise (dateLe mig) s := sortByDate_pairwise mig _
    have hcu : pu.column = i := by
      rw [hmku]
      rfl
    have hcv : pv.column = j := by
      rw [hmkv]
      rfl
    have hij : i < j := by
      rw [hcu, hcv] at hcol
      exact hcol
    obtain ⟨hil, hig⟩ := List.get?_eq_some.mp hiu
    obtain ⟨hjl, hjg⟩ := List.get?_eq_some.mp hjv
    have := List.pairwise_iff_get.mp hpw ⟨i, hil⟩ ⟨j, hjl⟩ hij
    rw [hig, hjg] at this
    exact this
  · intro u pu v pv hu hv hlevel hdate hsub
    obtain ⟨i, hiu, hmku, humem⟩ := hchar u pu hu
    obtain ⟨j, hjv, hmkv, hvmem⟩ := hchar v pv hv
    rw [hlevel] at hiu
    set gl := (lv.filter (fun e => e.2 == pv.level)).map Prod.fst with hgl
    set s := sortByDate mig gl with hs
    have hglnd : gl.Nodup :=
      List.Nodup.sublist ((List.filter_sublist lv).map Prod.fst) hknd
    have hsnd : s.Nodup := (sortByDate_perm mig gl).nodup_iff.mpr hglnd
    -- the levels-order pair survives filtering and projecting
    rw [hlevel] at hsub
    have hsubf : [(u, pv.level), (v, pv.level)].Sublist
        (lv.filter (fun e => e.2 == pv.level)) := by
      have := hsub.filter (fun e => e.2 == pv.level)
      simpa using this
    have hsubg : [u, v].Sublist gl := by
      have := hsubf.map Prod.fst
      simpa [hgl] using this
    have hsubs : [u, v].Sublist s := stable_sortByDate mig hdate hsubg
    obtain ⟨i', j', hij', hgu, hgv⟩ := pair_sublist_get? hsubs
    have hii : i = i' := nodup_get?_inj hsnd hiu hgu
    have hjj : j = j' := nodup_get?_inj hsnd hjv hgv
    have hcu : pu.column = i := by
      rw [hmku]
      rfl
    have hcv : pv.column = j := by
      rw [hmkv]
      rfl
    rw [hcu, hcv, hii, hjj]
    exact hij'

theorem C3_layout_positions_witness :
    strLeB (dateKey figOrder "v") (dateKey figOrder "u") = true ∧
    (pget ((calculate_positions figOrder figOrderParents).getD []) "v").map
        NodePosition.column
      = some 0 := by
  have h := C3_layout_positions figOrder figOrderParents
    [("r", 0), ("v", 1), ("w", 2), ("u", 1)]
    [("r", { x := 100, y := 50, level := 0, column := 0 }),
     ("v", { x := 100, y := 150, level := 1, column := 0 }),
     ("u", { x := 250, y := 150, level := 1, column := 1 }),
     ("w", { x := 100, y := 250, level := 2, column := 0 })]
    (by decide) (by decide) (by decide)
  constructor
  · exact h.2.1 "v" { x := 100, y := 150, level := 1, column := 0 }
      "u" { x := 250, y := 150, level := 1, column := 1 }
      (by decide) (by decide) (by decide) (by decide)
  · decide

end AlembicViewer
